import Mathlib

/-!
# Verification of the `pdftoc` heading-detection pipeline

Shallow embedding of `src/pdftoc/detect.py` and the TOC text format of
`src/pdftoc/cli.py` (`format_toc` / `parse_toc`), together with proofs of the
spec claims.

Conventions used throughout:
* Python `float` values (font sizes, bbox coordinates, scores) are modelled as
  exact rationals `ℚ`.  The heuristic constants (`0.08`, `0.3`, `0.5`, `2.0`,
  `842.0`) are exact rationals; `int(total_pages * 0.3)` is modelled as
  `(3 * totalPages) / 10` (natural floor division), which agrees with the
  Python float computation for every realistic page count.
* Python `str` is modelled as Lean `String`; character-level operations work on
  `String.data : List Char`.  `str.strip()` / `\s` use the ASCII-and-Latin
  whitespace table of CPython (`Py_UNICODE_ISSPACE`), `\d` uses ASCII digits,
  and `str.lower()` lowercases ASCII letters.
* All definitions are structurally recursive so that closed instances evaluate
  by `rfl`/`decide`.
-/

/-- CPython whitespace table (`str.isspace`, regex `\s`, `str.strip`).  Covers
ASCII space/tab/newline/CR/VT/FF, the C1 separators 0x1c–0x1f, NEL (0x85),
NBSP (0xa0) and the Unicode space/separator characters. -/
def isSpaceChar (c : Char) : Bool :=
  c.toNat = 32 || (9 ≤ c.toNat && c.toNat ≤ 13) || (28 ≤ c.toNat && c.toNat ≤ 31) ||
  c.toNat = 133 || c.toNat = 160 || c.toNat = 5760 ||
  (8192 ≤ c.toNat && c.toNat ≤ 8202) || c.toNat = 8232 || c.toNat = 8233 ||
  c.toNat = 8239 || c.toNat = 8287 || c.toNat = 12288

/-- ASCII digit, modelling regex `\d` on the ASCII inputs considered here. -/
def isDigitChar (c : Char) : Bool :=
  48 ≤ c.toNat && c.toNat ≤ 57

/-- `str.lower()` restricted to ASCII letters. -/
def lowerChar (c : Char) : Char :=
  if 65 ≤ c.toNat ∧ c.toNat ≤ 90 then Char.ofNat (c.toNat + 32) else c

/-- Python `str.strip()` on a character list: remove leading and trailing
whitespace. -/
def stripList (l : List Char) : List Char :=
  ((l.dropWhile isSpaceChar).reverse.dropWhile isSpaceChar).reverse

/-- Python `s.strip()` for `String`s. -/
def stripStr (s : String) : String :=
  String.mk (stripList s.data)

/-- Python `s.strip().lower()`, the normalisation used by the recurring-text
detector (`detect.py` line 62). -/
def normalizeText (s : String) : String :=
  String.mk ((stripList s.data).map lowerChar)

/-- First-occurrence deduplication that skips an initial avoid-set: keeps the
first copy of each element not in `avoid`, in order of first occurrence. -/
def dedupSkip [DecidableEq α] : List α → List α → List α
  | _, [] => []
  | avoid, a :: l =>
    if a ∈ avoid then dedupSkip avoid l else a :: dedupSkip (a :: avoid) l

/-- First-occurrence deduplication (keeps the first copy of each element). -/
def dedupFirst [DecidableEq α] (l : List α) : List α :=
  dedupSkip [] l

/-- Bounding box `(x0, y0, x1, y1)` of a span, in page coordinates
(`extract.py`, `Span.bbox`). -/
structure BBox where
  x0 : ℚ
  y0 : ℚ
  x1 : ℚ
  y1 : ℚ
deriving DecidableEq

/-- A text span with font metadata (`extract.py`, `@dataclass Span`). -/
structure Span where
  text : String
  size : ℚ
  bold : Bool
  font : String
  bbox : BBox
  page : Nat
deriving DecidableEq

/-- A detected heading (`detect.py`, `@dataclass Heading`); `level` is 1-based,
`page` is 0-indexed. -/
structure Heading where
  text : String
  level : Nat
  page : Nat
deriving DecidableEq

/-- The mutable candidate record built in step 3 of `detect_headings`. -/
structure Cand where
  text : String
  size : ℚ
  bold : Bool
  score : ℚ
  bbox : BBox
  page : Nat
deriving DecidableEq

/-! ## Body-size estimation (`_char_count_by_size`, `_find_body_size`)

A Python `Counter` is an insertion-ordered association list: `counts[k] += v`
updates an existing entry in place or appends a fresh key at the end. -/

/-- `counts[k] += v` on an insertion-ordered association list. -/
def bumpCount (k : ℚ) (v : Nat) : List (ℚ × Nat) → List (ℚ × Nat)
  | [] => [(k, v)]
  | (k', v') :: rest =>
    if k' = k then (k', v' + v) :: rest else (k', v') :: bumpCount k v rest

/-- The loop of `_char_count_by_size`: `for s in spans: counts[s.size] += len(s.text)`. -/
def charCountLoop : List (ℚ × Nat) → List Span → List (ℚ × Nat)
  | acc, [] => acc
  | acc, s :: rest => charCountLoop (bumpCount s.size s.text.length acc) rest

/-- `_char_count_by_size(spans)`: total characters per font size, keys in
first-occurrence order. -/
def charCountBySize (spans : List Span) : List (ℚ × Nat) :=
  charCountLoop [] spans

/-- `max(iterable, key=itemgetter(1))` as used by `Counter.most_common(1)`
(via `heapq.nlargest(1, ...)`): keeps the current best on ties, so the
earliest entry among tied counts wins. -/
def pickMaxCount (b : ℚ × Nat) : List (ℚ × Nat) → ℚ × Nat
  | [] => b
  | e :: rest => pickMaxCount (if b.2 < e.2 then e else b) rest

/-- `counts.most_common(1)[0][0]`.  `none` on an empty counter (Python would
raise `IndexError`; `detect_headings` only calls this on non-empty input). -/
def mostCommonSize : List (ℚ × Nat) → Option ℚ
  | [] => none
  | e :: rest => some (pickMaxCount e rest).1

/-- `_find_body_size(spans)`; the default `0` is never used by
`detect_headings`, which returns early on empty span lists. -/
def findBodySize (spans : List Span) : ℚ :=
  (mostCommonSize (charCountBySize spans)).getD 0

/-! ## Recurring header/footer detection (`_find_recurring_texts`)

The Python function keeps a per-page set `seen_per_page` and a counter
`zone_texts`; the counter value of a text `t` is exactly the number of
`(page, t)` pairs ever added to the per-page sets, so both pieces of state are
represented by the single insertion-ordered list of recorded
`(page, normalized text)` pairs. -/

/-- Is the span in the top or bottom 8% zone of the nominal 842pt page?
(`detect.py` lines 52-61; the page height is always the A4 default 842.0). -/
def inZone (s : Span) : Bool :=
  decide (s.bbox.y0 < 842 * (8 / 100 : ℚ)) ||
  decide (842 * (1 - 8 / 100 : ℚ) < s.bbox.y1)

/-- The recording loop of `_find_recurring_texts`: walk the spans, and for each
zone span with non-empty normalized text record `(page, text)` at most once. -/
def recurringLoop : List (Nat × String) → List Span → List (Nat × String)
  | seen, [] => seen
  | seen, s :: rest =>
    if inZone s ∧ normalizeText s.text ≠ "" ∧ (s.page, normalizeText s.text) ∉ seen then
      recurringLoop (seen ++ [(s.page, normalizeText s.text)]) rest
    else
      recurringLoop seen rest

/-- `max(2, int(total_pages * 0.3))`; the float product agrees with the exact
floor `3 * total_pages / 10` for every feasible page count. -/
def minRecurringCount (totalPages : Nat) : Nat :=
  max 2 ((3 * totalPages) / 10)

/-- Membership in the set returned by `_find_recurring_texts(spans, total_pages)`:
a text is in the set iff its zone count reaches the threshold. -/
def isRecurring (spans : List Span) (totalPages : Nat) (t : String) : Bool :=
  if totalPages < 3 then false
  else
    decide (minRecurringCount totalPages ≤
      ((recurringLoop [] spans).filter (fun e => decide (e.2 = t))).length)

/-! ## Noise filters (`_is_page_number`, `_is_caption`) -/

/-- Roman-numeral characters, upper or lower case (`[ivxlcdm]+` with
`re.IGNORECASE`). -/
def isRomanChar (c : Char) : Bool :=
  lowerChar c = 'i' || lowerChar c = 'v' || lowerChar c = 'x' ||
  lowerChar c = 'l' || lowerChar c = 'c' || lowerChar c = 'd' || lowerChar c = 'm'

/-- `re.fullmatch(r"page\s+\d+", s, re.IGNORECASE)`: the word "page", at least
one whitespace character, then digits to the end.  Since `(` `\s+` `)` is
followed by `\d` and digits are not whitespace, the greedy maximal-run reading
is exact. -/
def isPageWordMatch : List Char → Bool
  | c1 :: c2 :: c3 :: c4 :: rest =>
    lowerChar c1 = 'p' && lowerChar c2 = 'a' && lowerChar c3 = 'g' && lowerChar c4 = 'e' &&
    !(rest.takeWhile isSpaceChar).isEmpty &&
    !(rest.dropWhile isSpaceChar).isEmpty &&
    (rest.dropWhile isSpaceChar).all isDigitChar
  | _ => false

/-- `_is_page_number(text)`: pure digits, pure roman numerals, or "page N",
checked on the stripped text. -/
def isPageNumber (t : String) : Bool :=
  let s := stripList t.data
  (!s.isEmpty && s.all isDigitChar) ||
  (!s.isEmpty && s.all isRomanChar) ||
  isPageWordMatch s

/-- Case-insensitive literal-prefix test (`w` is given lowercased). -/
def startsWithCI (w : List Char) (s : List Char) : Bool :=
  (s.take w.length).map lowerChar = w

/-- `\s+\d` immediately after a caption keyword: at least one whitespace
character, then a digit. -/
def captionTail (rest : List Char) : Bool :=
  !(rest.takeWhile isSpaceChar).isEmpty &&
  (match rest.dropWhile isSpaceChar with
   | c :: _ => isDigitChar c
   | [] => false)

/-- `_is_caption(text)`:
`re.match(r"^(Figure|Fig\.|Table|Listing|Algorithm)\s+\d", text, re.IGNORECASE)`. -/
def isCaption (t : String) : Bool :=
  let s := t.data
  (startsWithCI ['f','i','g','u','r','e'] s && captionTail (s.drop 6)) ||
  (startsWithCI ['f','i','g','.'] s && captionTail (s.drop 4)) ||
  (startsWithCI ['t','a','b','l','e'] s && captionTail (s.drop 5)) ||
  (startsWithCI ['l','i','s','t','i','n','g'] s && captionTail (s.drop 7)) ||
  (startsWithCI ['a','l','g','o','r','i','t','h','m'] s && captionTail (s.drop 9))

/-! ## Candidate selection (step 3 of `detect_headings`) -/

/-- `_effective_score(size, bold) = size + (2.0 if bold else 0.0)`. -/
def effectiveScore (size : ℚ) (bold : Bool) : ℚ :=
  size + (if bold then 2 else 0)

/-- Does `s.text.strip()` start with a digit (`re.match(r"^\d", ...)`) ? -/
def startsWithDigit (l : List Char) : Bool :=
  match l with
  | c :: _ => isDigitChar c
  | [] => false

/-- The body of the step-3 loop of `detect_headings`: either skip the span or
build its candidate record.  `recurring` is membership in the set produced by
`_find_recurring_texts`. -/
def candOf (bodySize : ℚ) (recurring : String → Bool) (s : Span) : Option Cand :=
  if recurring (normalizeText s.text) then none
  else if isPageNumber s.text then none
  else if isCaption s.text then none
  else if effectiveScore s.size s.bold ≤ effectiveScore bodySize false then none
  else if (stripList s.text.data).length < 2 ∧ ¬ startsWithDigit (stripList s.text.data) then
    none
  else
    some { text := stripStr s.text, size := s.size, bold := s.bold,
           score := effectiveScore s.size s.bold, bbox := s.bbox, page := s.page }

/-! ## Line merging (`_merge_spans_on_same_line`) -/

/-- Are two candidate records on the same page with vertical bbox centers less
than 2pt apart? -/
def sameLine (prev c : Cand) : Bool :=
  decide (c.page = prev.page) &&
  decide (|(c.bbox.y0 + c.bbox.y1) / 2 - (prev.bbox.y0 + prev.bbox.y1) / 2| < 2)

/-- The in-place merge of a candidate into the previous record: join the texts
with one space and take the componentwise bounding-box union; all other fields
keep the previous record's values. -/
def mergeRec (prev c : Cand) : Cand :=
  { prev with
    text := prev.text ++ " " ++ c.text,
    bbox := ⟨min prev.bbox.x0 c.bbox.x0, min prev.bbox.y0 c.bbox.y0,
             max prev.bbox.x1 c.bbox.x1, max prev.bbox.y1 c.bbox.y1⟩ }

/-- The merging walk: `prev` is the last record of the output list built so
far (`merged[-1]`), which is extended in place or finalised. -/
def mergeAux (prev : Cand) : List Cand → List Cand
  | [] => [prev]
  | c :: rest =>
    if sameLine prev c then mergeAux (mergeRec prev c) rest
    else prev :: mergeAux c rest

/-- `_merge_spans_on_same_line(candidates)`. -/
def mergeSpansOnSameLine : List Cand → List Cand
  | [] => []
  | c :: rest => mergeAux c rest

/-! ## Level clustering (`_cluster_levels`) -/

/-- Descending insertion of a score into a sorted-descending list. -/
def insertDesc (x : ℚ) : List ℚ → List ℚ
  | [] => [x]
  | y :: ys => if y ≤ x then x :: y :: ys else y :: insertDesc x ys

/-- `sorted(set(scores), reverse=True)`: the distinct scores in (strictly)
descending order. -/
def sortedDescUnique (scores : List ℚ) : List ℚ :=
  (dedupFirst scores).foldr insertDesc []

/-- The walk of `_cluster_levels`: `prev` is `unique[i-1]`, `level` the current
level counter; a gap greater than 0.5 starts a new level. -/
def clusterWalk (prev : ℚ) (level : Nat) : List ℚ → List (ℚ × Nat)
  | [] => []
  | u :: rest =>
    if 1 / 2 < prev - u then (u, level + 1) :: clusterWalk u (level + 1) rest
    else (u, level) :: clusterWalk u level rest

/-- `_cluster_levels(scores)`: map distinct scores, sorted descending, to
levels 1, 2, 3, …, merging scores within 0.5 of the previous one. -/
def clusterLevels (scores : List ℚ) : List (ℚ × Nat) :=
  match sortedDescUnique scores with
  | [] => []
  | u :: rest => (u, 1) :: clusterWalk u 1 rest

/-- Dictionary lookup `score_to_level[score]`.  The default `0` models the
(unreachable) `KeyError` case: every candidate's score is a key. -/
def assocLevel : List (ℚ × Nat) → ℚ → Nat
  | [], _ => 0
  | (k, v) :: rest, q => if k = q then v else assocLevel rest q

/-! ## Hierarchy repair (`_fix_level_gaps`) -/

/-- The stack walk of `_fix_level_gaps`.  The stack is kept top-first; popping
while the top is `≥ h.level` is `dropWhile`.  The empty-stack branch of the
source is the `stack = []` instance of the general branch (no pops, emitted
level `0 + 1 = 1`). -/
def fixAux : List Heading → List Nat → List Heading
  | [], _ => []
  | h :: rest, stack =>
    let stack' := stack.dropWhile (fun t => decide (h.level ≤ t))
    { text := h.text, level := stack'.length + 1, page := h.page } ::
      fixAux rest (h.level :: stack')

/-- `_fix_level_gaps(headings)`. -/
def fixLevelGaps (hs : List Heading) : List Heading :=
  fixAux hs []

/-! ## The pipeline (`detect_headings`) -/

/-- Steps 1–3 of `detect_headings`: compute the body size and the recurring
set, then run the candidate loop over the spans. -/
def candidateRecords (spans : List Span) (totalPages : Nat) : List Cand :=
  spans.filterMap (candOf (findBodySize spans) (isRecurring spans totalPages))

/-- The body of the step-6 loop of `detect_headings`: look up the candidate's
level and drop it when the level exceeds `max_level`. -/
def buildHeading (scoreToLevel : List (ℚ × Nat)) (maxLevel : Nat) (c : Cand) :
    Option Heading :=
  if maxLevel < assocLevel scoreToLevel c.score then none
  else some ⟨c.text, assocLevel scoreToLevel c.score, c.page⟩

/-- `detect_headings(spans, total_pages, max_level)`.  The `debug` parameter
only produces `stderr` output and is omitted. -/
def detectHeadings (spans : List Span) (totalPages : Nat) (maxLevel : Nat := 6) :
    List Heading :=
  if spans.isEmpty then []
  else
    let cands := mergeSpansOnSameLine (candidateRecords spans totalPages)
    if cands.isEmpty then []
    else
      let scoreToLevel := clusterLevels (cands.map (fun c => c.score))
      (fixLevelGaps (cands.filterMap (buildHeading scoreToLevel maxLevel))).filter
        (fun h => decide (h.level ≤ maxLevel))

/-! ## The TOC text format (`cli.py`: `format_toc`, `parse_toc`)

`parse_toc` matches each line against the regex
`^( *)(.*?)\s{2,}\(p\.\s*(\d+)\)\s*$`.  The embedding spells out the
backtracking search of that pattern:

* group 1 (`( *)`) is greedy: candidate lengths are tried from the longest
  space prefix downwards (`greedyScan`);
* group 2 (`(.*?)`) is lazy: candidate lengths are tried from 0 upwards
  (`lazyScanAux`);
* the remainder of the pattern is deterministic (`checkRest`): each of
  `\s{2,}`, `\s*` and `\d+` is followed by a literal that cannot extend the
  run (`\(` after whitespace, a digit after whitespace, `\)` after digits), so
  the greedy quantifiers take exactly the maximal run, and `\s*$` accepts
  exactly an all-whitespace tail. -/

/-- Decimal digit character for `0 ≤ n ≤ 9`. -/
def digitChar (n : Nat) : Char :=
  Char.ofNat (48 + n)

/-- Decimal digits of `n`, most significant first, with explicit fuel (the
fuel `n + 1` always suffices). -/
def natDigitsAux : Nat → Nat → List Char
  | 0, _ => []
  | fuel + 1, n =>
    if n < 10 then [digitChar n]
    else natDigitsAux fuel (n / 10) ++ [digitChar (n % 10)]

/-- Decimal representation of a natural number, as produced by Python's
string formatting. -/
def natDigits (n : Nat) : List Char :=
  natDigitsAux (n + 1) n

/-- `int(s)` on a digit string. -/
def digitsToNat (ds : List Char) : Nat :=
  ds.foldl (fun a c => 10 * a + (c.toNat - 48)) 0

/-- One line of `format_toc`: `f"{indent}{h.text}  (p. {h.page + 1})"` with
`indent = "  " * (h.level - 1)`. -/
def formatLine (h : Heading) : List Char :=
  List.replicate (2 * (h.level - 1)) ' ' ++ h.text.data ++
    (' ' :: ' ' :: '(' :: 'p' :: '.' :: ' ' :: (natDigits (h.page + 1) ++ [')']))

/-- `"\n".join(lines)`. -/
def joinLines : List (List Char) → List Char
  | [] => []
  | [l] => l
  | l :: rest => l ++ '\n' :: joinLines rest

/-- `format_toc(headings)`: newline-joined lines plus a trailing newline. -/
def formatToc (hs : List Heading) : String :=
  String.mk (joinLines (hs.map formatLine) ++ ['\n'])

/-- Is `c` a line boundary for `str.splitlines()`?  (`\n`, `\r`, `\v`, `\f`,
FS/GS/RS, NEL, LS, PS.) -/
def splitterChar (c : Char) : Bool :=
  c.toNat = 10 || c.toNat = 13 || c.toNat = 11 || c.toNat = 12 ||
  c.toNat = 28 || c.toNat = 29 || c.toNat = 30 ||
  c.toNat = 133 || c.toNat = 8232 || c.toNat = 8233

/-- `str.splitlines()`: `acc` holds the current line reversed; `\r\n` counts
as a single boundary; no empty trailing line is produced. -/
def splitLinesAux : List Char → List Char → List (List Char)
  | [], acc => if acc.isEmpty then [] else [acc.reverse]
  | [c], acc =>
    if c.toNat = 13 ∨ splitterChar c then [acc.reverse]
    else [(c :: acc).reverse]
  | c1 :: c2 :: rest, acc =>
    if c1.toNat = 13 then
      if c2.toNat = 10 then acc.reverse :: splitLinesAux rest []
      else acc.reverse :: splitLinesAux (c2 :: rest) []
    else if splitterChar c1 then acc.reverse :: splitLinesAux (c2 :: rest) []
    else splitLinesAux (c2 :: rest) (c1 :: acc)

/-- `text.splitlines()`. -/
def splitLines (l : List Char) : List (List Char) :=
  splitLinesAux l []

/-- The deterministic tail `\s{2,}\(p\.\s*(\d+)\)\s*$` of the TOC-line regex,
returning the page number on success. -/
def checkRest (cs : List Char) : Option Nat :=
  if (cs.takeWhile isSpaceChar).length < 2 then none
  else
    match cs.dropWhile isSpaceChar with
    | c1 :: c2 :: c3 :: r2 =>
      if c1 = '(' ∧ c2 = 'p' ∧ c3 = '.' then
        let r3 := r2.dropWhile isSpaceChar
        let ds := r3.takeWhile isDigitChar
        if ds.isEmpty then none
        else
          match r3.dropWhile isDigitChar with
          | c4 :: r5 =>
            if c4 = ')' ∧ r5.all isSpaceChar then some (digitsToNat ds) else none
          | [] => none
      else none
    | _ => none

/-- The lazy search for group 2 (`(.*?)`): try the shortest match first.
Returns the group-2 length (offset by the starting index `i`) and the page
number. -/
def lazyScanAux : Nat → List Char → Option (Nat × Nat)
  | i, [] =>
    match checkRest [] with
    | some p => some (i, p)
    | none => none
  | i, c :: r =>
    match checkRest (c :: r) with
    | some p => some (i, p)
    | none => lazyScanAux (i + 1) r

/-- The greedy search for group 1 (`( *)`): try the longest space prefix
first, backtracking to shorter ones.  Returns `(group-1 length, group-2
length, page)`. -/
def greedyScan (line : List Char) : Nat → Option (Nat × Nat × Nat)
  | 0 =>
    match lazyScanAux 0 line with
    | some (g2, p) => some (0, g2, p)
    | none => none
  | g + 1 =>
    match lazyScanAux 0 (line.drop (g + 1)) with
    | some (g2, p) => some (g + 1, g2, p)
    | none => greedyScan line g

/-- `re.match(r"^( *)(.*?)\s{2,}\(p\.\s*(\d+)\)\s*$", line)`: on success,
the indentation width, the raw group-2 text and the page number. -/
def matchTocLine (line : List Char) : Option (Nat × List Char × Nat) :=
  match greedyScan line (line.takeWhile (fun c => decide (c = ' '))).length with
  | some (g1, g2, p) => some (g1, (line.drop g1).take g2, p)
  | none => none

/-- The line loop of `parse_toc`; `sys.exit(1)` on a malformed line is
modelled as `Except.error`.  `int(group(3)) - 1` is natural subtraction here:
the two differ only for the page marker `(p. 0)`, which `format_toc` never
emits. -/
def parseTocAux : Nat → List (List Char) → Except String (List Heading)
  | _, [] => Except.ok []
  | lineno, line :: rest =>
    if (stripList line).isEmpty then parseTocAux (lineno + 1) rest
    else
      match matchTocLine line with
      | none => Except.error ("malformed TOC line " ++ toString lineno)
      | some (spaces, title, page) =>
        if spaces % 2 ≠ 0 then
          Except.error ("odd indentation on line " ++ toString lineno)
        else
          match parseTocAux (lineno + 1) rest with
          | Except.error e => Except.error e
          | Except.ok hs =>
            Except.ok (⟨String.mk (stripList title), spaces / 2 + 1, page - 1⟩ :: hs)

/-- `parse_toc(text)`. -/
def parseToc (text : String) : Except String (List Heading) :=
  parseTocAux 1 (splitLines text.data)

/-! ## Generic list lemmas used below -/

theorem takeWhile_all_append {p : α → Bool} {l₁ l₂ : List α} (h₁ : ∀ a ∈ l₁, p a = true)
    {c : α} (hc : p c = false) : (l₁ ++ c :: l₂).takeWhile p = l₁ := by
  induction l₁ with
  | nil => simp [List.takeWhile_cons, hc]
  | cons a l ih =>
    simp only [List.cons_append, List.takeWhile_cons, h₁ a (by simp)]
    exact congrArg (a :: ·) (ih fun x hx => h₁ x (by simp [hx]))

theorem dropWhile_all_append {p : α → Bool} {l₁ l₂ : List α} (h₁ : ∀ a ∈ l₁, p a = true)
    {c : α} (hc : p c = false) : (l₁ ++ c :: l₂).dropWhile p = c :: l₂ := by
  induction l₁ with
  | nil => simp [List.dropWhile_cons, hc]
  | cons a l ih =>
    simp only [List.cons_append, List.dropWhile_cons, h₁ a (by simp), if_true]
    exact ih fun x hx => h₁ x (by simp [hx])

theorem takeWhile_eq_self_of_all {p : α → Bool} {l : List α} (h : ∀ a ∈ l, p a = true) :
    l.takeWhile p = l := by
  induction l with
  | nil => rfl
  | cons a t ih =>
    simp only [List.takeWhile_cons, h a (by simp)]
    exact congrArg (a :: ·) (ih fun x hx => h x (by simp [hx]))

theorem mem_dropWhile_of_mem {p : α → Bool} {l : List α} {c : α} (hm : c ∈ l)
    (hc : p c = false) : c ∈ l.dropWhile p := by
  induction l with
  | nil => cases hm
  | cons a t ih =>
    rw [List.dropWhile_cons]
    rcases List.mem_cons.1 hm with rfl | ht
    · simp [hc]
    · split
      · exact ih ht
      · exact List.mem_cons_of_mem _ ht

theorem dropWhile_append_of_exists {p : α → Bool} {l₁ : List α}
    (h : ∃ c ∈ l₁, p c = false) (l₂ : List α) :
    (l₁ ++ l₂).dropWhile p = l₁.dropWhile p ++ l₂ ∧ l₁.dropWhile p ≠ [] := by
  induction l₁ with
  | nil => simp at h
  | cons a t ih =>
    simp only [List.cons_append, List.dropWhile_cons]
    by_cases hpa : p a = true
    · simp only [hpa, if_true]
      apply ih
      rcases h with ⟨c, hc, hpc⟩
      rcases List.mem_cons.1 hc with rfl | h'
      · rw [hpa] at hpc; cases hpc
      · exact ⟨c, h', hpc⟩
    · simp [hpa]

/-! ## Claim C8: the empty span list yields the empty heading sequence -/

/-- **C8.** For the empty span list, `detect_headings` returns the empty
heading sequence (and raises no error), for every page count and maximum
level. -/
theorem detectHeadings_nil (totalPages maxLevel : Nat) :
    detectHeadings [] totalPages maxLevel = [] := rfl

/-! ## Claim C7: the line-merge step -/

/-- **C7.** Two consecutive candidate records merge exactly when they share a
page and their vertical bbox centers differ by strictly less than 2 points;
the merged record joins the texts with a single space and takes the
componentwise bbox union, and merging always combines the current candidate
with the immediately preceding (possibly already-merged) record, as shown by
the recursion shape. -/
theorem mergeSpans_step (prev c : Cand) (rest : List Cand) :
    (mergeAux prev (c :: rest) =
      if c.page = prev.page ∧
          |(c.bbox.y0 + c.bbox.y1) / 2 - (prev.bbox.y0 + prev.bbox.y1) / 2| < 2 then
        mergeAux
          { text := prev.text ++ " " ++ c.text, size := prev.size, bold := prev.bold,
            score := prev.score,
            bbox := ⟨min prev.bbox.x0 c.bbox.x0, min prev.bbox.y0 c.bbox.y0,
                     max prev.bbox.x1 c.bbox.x1, max prev.bbox.y1 c.bbox.y1⟩,
            page := prev.page } rest
      else prev :: mergeAux c rest) ∧
    mergeSpansOnSameLine [prev, c] =
      if c.page = prev.page ∧
          |(c.bbox.y0 + c.bbox.y1) / 2 - (prev.bbox.y0 + prev.bbox.y1) / 2| < 2 then
        [{ text := prev.text ++ " " ++ c.text, size := prev.size, bold := prev.bold,
           score := prev.score,
           bbox := ⟨min prev.bbox.x0 c.bbox.x0, min prev.bbox.y0 c.bbox.y0,
                    max prev.bbox.x1 c.bbox.x1, max prev.bbox.y1 c.bbox.y1⟩,
           page := prev.page }]
      else [prev, c] := by
  have hrec : mergeRec prev c =
      { text := prev.text ++ " " ++ c.text, size := prev.size, bold := prev.bold,
        score := prev.score,
        bbox := ⟨min prev.bbox.x0 c.bbox.x0, min prev.bbox.y0 c.bbox.y0,
                 max prev.bbox.x1 c.bbox.x1, max prev.bbox.y1 c.bbox.y1⟩,
        page := prev.page } := rfl
  constructor
  · show (if sameLine prev c then mergeAux (mergeRec prev c) rest
          else prev :: mergeAux c rest) = _
    by_cases h : c.page = prev.page ∧
        |(c.bbox.y0 + c.bbox.y1) / 2 - (prev.bbox.y0 + prev.bbox.y1) / 2| < 2
    · rw [if_pos h, ← hrec]
      have : sameLine prev c = true := by
        simp only [sameLine, Bool.and_eq_true, decide_eq_true_eq]
        exact h
      rw [if_pos this]
    · rw [if_neg h]
      have hs : sameLine prev c = false := by
        rw [← Bool.not_eq_true]
        simp only [sameLine, Bool.and_eq_true, decide_eq_true_eq]
        exact h
      rw [if_neg (by simp [hs])]
  · show mergeAux prev [c] = _
    show (if sameLine prev c then mergeAux (mergeRec prev c) []
          else prev :: mergeAux c []) = _
    by_cases h : c.page = prev.page ∧
        |(c.bbox.y0 + c.bbox.y1) / 2 - (prev.bbox.y0 + prev.bbox.y1) / 2| < 2
    · have hs : sameLine prev c = true := by
        simp only [sameLine, Bool.and_eq_true, decide_eq_true_eq]
        exact h
      rw [if_pos h, if_pos hs, hrec]
      rfl
    · have hs : sameLine prev c = false := by
        rw [← Bool.not_eq_true]
        simp only [sameLine, Bool.and_eq_true, decide_eq_true_eq]
        exact h
      rw [if_neg h, if_neg (by simp [hs])]
      rfl

/-! ## Claim C9: merging changes only `text` and `bbox`, and never reorders -/

/-- The fields of a candidate record that the line merger never touches. -/
def candFields (c : Cand) : ℚ × ℚ × Bool × Nat :=
  (c.score, c.size, c.bold, c.page)

theorem mergeAux_fields_sublist (cs : List Cand) :
    ∀ prev : Cand,
      ((mergeAux prev cs).map candFields).Sublist (candFields prev :: cs.map candFields) := by
  induction cs with
  | nil => intro prev; simp [mergeAux]
  | cons c rest ih =>
    intro prev
    show ((if sameLine prev c then mergeAux (mergeRec prev c) rest
           else prev :: mergeAux c rest).map candFields).Sublist _
    by_cases h : sameLine prev c
    · rw [if_pos h]
      have hkey : candFields (mergeRec prev c) = candFields prev := rfl
      have h1 := ih (mergeRec prev c)
      rw [hkey] at h1
      refine h1.trans ?_
      simp only [List.map_cons]
      exact (List.sublist_cons_self (candFields c) (rest.map candFields)).cons₂
        (candFields prev)
    · rw [if_neg h]
      simpa using (ih c).cons₂ (candFields prev)

/-- **C9.** A merge keeps the first fragment's `score`, `size`, `bold` and
`page` (only `text` and `bbox` change), and the sequence of untouched fields
of the merged list is a subsequence of the input's: merging never reorders
candidates, and each surviving record carries the score of its first
fragment (which later determines its level). -/
theorem merge_frame_and_order :
    (∀ prev c : Cand,
      (mergeRec prev c).score = prev.score ∧ (mergeRec prev c).size = prev.size ∧
      (mergeRec prev c).bold = prev.bold ∧ (mergeRec prev c).page = prev.page) ∧
    ∀ cs : List Cand,
      ((mergeSpansOnSameLine cs).map candFields).Sublist (cs.map candFields) := by
  refine ⟨fun prev c => ⟨rfl, rfl, rfl, rfl⟩, fun cs => ?_⟩
  cases cs with
  | nil => simp [mergeSpansOnSameLine]
  | cons c rest =>
    show ((mergeAux c rest).map candFields).Sublist _
    simpa using mergeAux_fields_sublist rest c

/-! ## Facts about the hierarchy repairer (`_fix_level_gaps`) -/

theorem fixAux_level_pos : ∀ (hs : List Heading) (stack : List Nat),
    ∀ h' ∈ fixAux hs stack, 1 ≤ h'.level := by
  intro hs
  induction hs with
  | nil => intro stack h' h; cases h
  | cons h rest ih =>
    intro stack h' hm
    rcases List.mem_cons.1 hm with rfl | hm'
    · exact Nat.le_add_left 1 _
    · exact ih _ h' hm'

theorem fixAux_text_mem : ∀ (hs : List Heading) (stack : List Nat),
    ∀ h' ∈ fixAux hs stack, ∃ h ∈ hs, h'.text = h.text := by
  intro hs
  induction hs with
  | nil => intro stack h' h; cases h
  | cons h rest ih =>
    intro stack h' hm
    rcases List.mem_cons.1 hm with rfl | hm'
    · exact ⟨h, by simp, rfl⟩
    · rcases ih _ h' hm' with ⟨h₀, hm₀, ht₀⟩
      exact ⟨h₀, by simp [hm₀], ht₀⟩

/-! ## Claim C4: output levels lie in `[1, max_level]` -/

theorem filter_fix_levels_bounded (hs : List Heading) (ml : Nat) :
    (((fixLevelGaps hs).filter (fun h => decide (h.level ≤ ml))).all
      (fun h => decide (1 ≤ h.level) && decide (h.level ≤ ml))) = true := by
  rw [List.all_eq_true]
  intro h hm
  rcases List.mem_filter.1 hm with ⟨hmem, hle⟩
  simp only [Bool.and_eq_true, decide_eq_true_eq] at *
  exact ⟨fixAux_level_pos hs [] h hmem, hle⟩

/-- **C4.** Every heading returned by `detect_headings` has level at least 1
and at most the configured maximum, for every input span list, page count and
maximum level. -/
theorem detectHeadings_levels_bounded (spans : List Span) (totalPages maxLevel : Nat) :
    ((detectHeadings spans totalPages maxLevel).all
      (fun h => decide (1 ≤ h.level) && decide (h.level ≤ maxLevel))) = true := by
  rw [detectHeadings]
  split
  · rfl
  · dsimp only
    split
    · rfl
    · exact filter_fix_levels_bounded _ _

/-! ## Claim C10: every returned heading has non-empty text -/

theorem candOf_text_ne {b : ℚ} {r : String → Bool} {s : Span} {c : Cand}
    (h : candOf b r s = some c) : c.text ≠ "" := by
  unfold candOf at h
  split at h
  · cases h
  · split at h
    · cases h
    · split at h
      · cases h
      · split at h
        · cases h
        · split at h
          · cases h
          · rename_i hguard
            injection h with h2
            rw [← h2]
            show stripStr s.text ≠ ""
            intro hempty
            have hdata : stripList s.text.data = [] := congrArg String.data hempty
            apply hguard
            rw [hdata]
            exact ⟨by simp, by simp [startsWithDigit]⟩

theorem string_append_space_ne (a b : String) : a ++ " " ++ b ≠ "" := by
  intro h
  have h2 := congrArg String.data h
  simp [String.data_append] at h2

theorem mergeAux_text_ne : ∀ (cs : List Cand) (prev : Cand), prev.text ≠ "" →
    (∀ x ∈ cs, x.text ≠ "") → ∀ y ∈ mergeAux prev cs, y.text ≠ "" := by
  intro cs
  induction cs with
  | nil =>
    intro prev hp _ y hy
    rcases List.mem_singleton.1 hy with rfl
    exact hp
  | cons c rest ih =>
    intro prev hp hall y hy
    show y.text ≠ ""
    by_cases hsl : sameLine prev c
    · rw [show mergeAux prev (c :: rest) = mergeAux (mergeRec prev c) rest by
        simp [mergeAux, hsl]] at hy
      exact ih (mergeRec prev c) (string_append_space_ne _ _)
        (fun x hx => hall x (by simp [hx])) y hy
    · rw [show mergeAux prev (c :: rest) = prev :: mergeAux c rest by
        simp [mergeAux, hsl]] at hy
      rcases List.mem_cons.1 hy with rfl | hy'
      · exact hp
      · exact ih c (hall c (by simp)) (fun x hx => hall x (by simp [hx])) y hy'

theorem mergeSpans_text_ne (cs : List Cand) (hall : ∀ x ∈ cs, x.text ≠ "") :
    ∀ y ∈ mergeSpansOnSameLine cs, y.text ≠ "" := by
  cases cs with
  | nil => intro y hy; cases hy
  | cons c rest =>
    exact mergeAux_text_ne rest c (hall c (by simp)) (fun x hx => hall x (by simp [hx]))

/-- **C10.** Every heading returned by `detect_headings` has non-empty text:
candidate texts are non-empty stripped span texts, merging joins non-empty
texts with a space, and the later stages only copy texts. -/
theorem detectHeadings_text_nonempty (spans : List Span) (totalPages maxLevel : Nat) :
    ((detectHeadings spans totalPages maxLevel).all
      (fun h => !decide (h.text = ""))) = true := by
  rw [detectHeadings]
  split
  · rfl
  · dsimp only
    split
    · rfl
    · rw [List.all_eq_true]
      intro h hm
      simp only [Bool.not_eq_eq_eq_not, Bool.not_true, decide_eq_false_iff_not]
      rcases List.mem_filter.1 hm with ⟨hmem, _⟩
      rcases fixAux_text_mem _ [] h hmem with ⟨h₀, hm₀, ht₀⟩
      rcases List.mem_filterMap.1 hm₀ with ⟨c, hcm, hceq⟩
      have hct : h₀.text = c.text := by
        unfold buildHeading at hceq
        split at hceq
        · cases hceq
        · injection hceq with h2
          rw [← h2]
      rw [ht₀, hct]
      apply mergeSpans_text_ne _ _ c hcm
      intro x hx
      rcases List.mem_filterMap.1 hx with ⟨sp, _, hsp⟩
      exact candOf_text_ne hsp

/-! ## Claim C1: the no-gap invariant of the emitted level sequence -/

/-- `stepOk b ls`: the first element of `ls` is at most `b`, and each later
element is at most one more than its predecessor.  This is the shape of the
level sequences emitted by `_fix_level_gaps`. -/
def stepOk : Nat → List Nat → Prop
  | _, [] => True
  | b, l :: ls => l ≤ b ∧ stepOk (l + 1) ls

/-- `noGapFrom m ls`: walking `ls`, every element is at most one more than
the maximum of `m` and all earlier elements. -/
def noGapFrom : Nat → List Nat → Prop
  | _, [] => True
  | m, l :: ls => l ≤ m + 1 ∧ noGapFrom (max m l) ls

/-- The no-gap invariant of a level sequence: the first level (when one
exists) is 1, and every level is at most one greater than the maximum level
seen before it. -/
def noGap : List Nat → Prop
  | [] => True
  | l :: ls => l = 1 ∧ noGapFrom 1 ls

theorem fixAux_stepOk : ∀ (hs : List Heading) (stack : List Nat),
    stepOk (stack.length + 1) ((fixAux hs stack).map (fun h => h.level)) := by
  intro hs
  induction hs with
  | nil => intro stack; trivial
  | cons h rest ih =>
    intro stack
    refine ⟨Nat.succ_le_succ (List.dropWhile_sublist _).length_le, ?_⟩
    have := ih (h.level :: stack.dropWhile (fun t => decide (h.level ≤ t)))
    simpa using this

/-- Filtering by a level cap preserves the running-maximum no-gap property on
sequences that rise by at most one per step. -/
theorem noGapFrom_filter (ml : Nat) : ∀ (ls : List Nat) (b m : Nat),
    stepOk b ls → (b ≤ m + 1 ∨ m = ml) → m ≤ ml →
    noGapFrom m (ls.filter (fun l => decide (l ≤ ml))) := by
  intro ls
  induction ls with
  | nil => intro b m _ _ _; trivial
  | cons l rest ih =>
    intro b m hstep hbm hmml
    rcases hstep with ⟨hlb, hrest⟩
    by_cases hl : l ≤ ml
    · rw [List.filter_cons_of_pos (by simpa using hl)]
      have hlm : l ≤ m + 1 := by
        rcases hbm with hb | rfl
        · exact hlb.trans hb
        · exact hl.trans (Nat.le_succ _)
      refine ⟨hlm, ih (l + 1) (max m l) hrest (Or.inl ?_) ?_⟩
      · exact Nat.succ_le_succ (Nat.le_max_right m l)
      · exact max_le hmml hl
    · rw [List.filter_cons_of_neg (by simpa using hl)]
      have hm' : m = ml := by
        rcases hbm with hb | rfl
        · have h1 : l ≤ m + 1 := hlb.trans hb
          have h2 : ml + 1 ≤ l := Nat.succ_le_of_lt (Nat.lt_of_not_le hl)
          omega
        · rfl
      exact ih (l + 1) m hrest (Or.inr hm') hmml

/-- The combination of repair and the max-level re-filter always produces a
no-gap sequence. -/
theorem map_level_filter (ml : Nat) : ∀ hs : List Heading,
    (hs.filter (fun h => decide (h.level ≤ ml))).map (fun h => h.level) =
      (hs.map (fun h => h.level)).filter (fun l => decide (l ≤ ml)) := by
  intro hs
  induction hs with
  | nil => rfl
  | cons h rest ih =>
    by_cases hl : h.level ≤ ml
    · rw [List.filter_cons_of_pos (by simpa using hl), List.map_cons, List.map_cons,
        List.filter_cons_of_pos (by simpa using hl), ih]
    · rw [List.filter_cons_of_neg (by simpa using hl), List.map_cons,
        List.filter_cons_of_neg (by simpa using hl), ih]

theorem noGap_filter_fix (hs : List Heading) (ml : Nat) :
    noGap (((fixLevelGaps hs).filter (fun h => decide (h.level ≤ ml))).map
      (fun h => h.level)) := by
  rw [map_level_filter]
  cases hs with
  | nil => trivial
  | cons h rest =>
    show noGap (List.filter _ ((fixAux (h :: rest) []).map (fun h => h.level)))
    have hfx : (fixAux (h :: rest) []).map (fun h => h.level) =
        1 :: (fixAux rest [h.level]).map (fun h => h.level) := by
      simp [fixAux]
    rw [hfx]
    by_cases hml : 1 ≤ ml
    · rw [List.filter_cons_of_pos (by simpa using hml)]
      refine ⟨rfl, ?_⟩
      have hstep := fixAux_stepOk rest [h.level]
      exact noGapFrom_filter ml _ 2 1 (by simpa using hstep) (Or.inl (by omega)) hml
    · have hml0 : ml = 0 := by omega
      subst hml0
      have hnil : List.filter (fun l => decide (l ≤ 0))
          (1 :: (fixAux rest [h.level]).map (fun h => h.level)) = [] := by
        rw [List.filter_eq_nil_iff]
        intro a ha
        rcases List.mem_cons.1 ha with rfl | ha'
        · simp
        · rcases List.mem_map.1 ha' with ⟨h', hm', rfl⟩
          have := fixAux_level_pos rest [h.level] h' hm'
          simpa using Nat.pos_iff_ne_zero.1 this
      rw [hnil]
      trivial

/-- **C1.** For every span list, page count and maximum level, the level
sequence returned by `detect_headings` satisfies the no-gap invariant: the
first heading (when one exists) has level 1, and each heading's level is at
most one greater than the maximum level among the headings before it — even
after the post-repair max-level filtering. -/
theorem detectHeadings_noGap (spans : List Span) (totalPages maxLevel : Nat) :
    noGap ((detectHeadings spans totalPages maxLevel).map (fun h => h.level)) := by
  rw [detectHeadings]
  split
  · trivial
  · dsimp only
    split
    · trivial
    · exact noGap_filter_fix _ _

/-! ## Claim C6: the candidate-selection criterion -/

/-- **C6.** A span that passes the three noise filters becomes a candidate iff
its styling score `size + (2.0 if bold else 0.0)` strictly exceeds the body
score (the body size with boldness treated as false) and its trimmed text has
length at least 2 or starts with a digit; in particular, a non-bold span whose
size equals the body size is never a candidate. -/
theorem candOf_criterion (b : ℚ) (r : String → Bool) (s : Span)
    (h1 : r (normalizeText s.text) = false) (h2 : isPageNumber s.text = false)
    (h3 : isCaption s.text = false) :
    ((candOf b r s).isSome ↔
      (effectiveScore b false < effectiveScore s.size s.bold ∧
        (2 ≤ (stripList s.text.data).length ∨
          startsWithDigit (stripList s.text.data) = true))) ∧
    (s.bold = false → s.size = b → candOf b r s = none) := by
  constructor
  · unfold candOf
    rw [h1, h2, h3]
    simp only [Bool.false_eq_true, if_false]
    by_cases hsc : effectiveScore s.size s.bold ≤ effectiveScore b false
    · rw [if_pos hsc]
      simp only [Option.isSome_none, Bool.false_eq_true, false_iff]
      intro hcon
      exact absurd hsc (not_le.2 hcon.1)
    · rw [if_neg hsc]
      by_cases hlen : (stripList s.text.data).length < 2 ∧
          ¬ startsWithDigit (stripList s.text.data) = true
      · rw [if_pos hlen]
        simp only [Option.isSome_none, Bool.false_eq_true, false_iff]
        intro hcon
        rcases hcon.2 with hc | hc
        · exact absurd hc (not_le.2 hlen.1)
        · exact hlen.2 hc
      · rw [if_neg hlen]
        simp only [Option.isSome_some, true_iff]
        refine ⟨not_le.1 hsc, ?_⟩
        by_cases hd : startsWithDigit (stripList s.text.data) = true
        · exact Or.inr hd
        · rcases not_and_or.1 hlen with hna | hna
          · exact Or.inl (not_lt.1 hna)
          · exact absurd (not_not.1 hna) hd
  · intro hb hsz
    unfold candOf
    rw [h1, h2, h3]
    simp only [Bool.false_eq_true, if_false]
    rw [if_pos (by rw [hb, hsz])]

/-- A concrete span used to instantiate `candOf_criterion`. -/
def wSpan : Span :=
  { text := "Introduction", size := 24, bold := false, font := "Helvetica",
    bbox := ⟨72, 100, 300, 124⟩, page := 0 }

/-- Witness for C6: `candOf_criterion` applied to a concrete body size,
recurring set and span. -/
theorem candOf_criterion_witness :
    (((candOf 10 (fun _ => false) wSpan).isSome ↔
      (effectiveScore 10 false < effectiveScore wSpan.size wSpan.bold ∧
        (2 ≤ (stripList wSpan.text.data).length ∨
          startsWithDigit (stripList wSpan.text.data) = true))) ∧
    (wSpan.bold = false → wSpan.size = 10 → candOf 10 (fun _ => false) wSpan = none)) :=
  candOf_criterion 10 (fun _ => false) wSpan rfl (by decide) (by decide)

/-! ## Claim C5: characterisation of the recurring header/footer set -/

/-- The distinct pages on which some span in the 8% zone normalises to `t`
(in order of first occurrence). -/
def zonePages (spans : List Span) (t : String) : List Nat :=
  dedupFirst ((spans.filter
    (fun s => inZone s && decide (normalizeText s.text = t))).map (fun s => s.page))

theorem dedupSkip_cons_of_mem [DecidableEq α] {avoid l : List α} {a : α} (h : a ∈ avoid) :
    dedupSkip avoid (a :: l) = dedupSkip avoid l := by
  simp [dedupSkip, h]

theorem dedupSkip_cons_of_not_mem [DecidableEq α] {avoid l : List α} {a : α} (h : a ∉ avoid) :
    dedupSkip avoid (a :: l) = a :: dedupSkip (a :: avoid) l := by
  simp [dedupSkip, h]

theorem dedupSkip_congr [DecidableEq α] : ∀ (l a₁ a₂ : List α),
    (∀ x : α, x ∈ a₁ ↔ x ∈ a₂) → dedupSkip a₁ l = dedupSkip a₂ l := by
  intro l
  induction l with
  | nil => intro a₁ a₂ _; rfl
  | cons a rest ih =>
    intro a₁ a₂ hiff
    by_cases hmem : a ∈ a₁
    · rw [dedupSkip_cons_of_mem hmem, dedupSkip_cons_of_mem ((hiff a).1 hmem)]
      exact ih a₁ a₂ hiff
    · rw [dedupSkip_cons_of_not_mem hmem,
        dedupSkip_cons_of_not_mem (fun hc => hmem ((hiff a).2 hc))]
      rw [ih (a :: a₁) (a :: a₂) (by intro x; simp [hiff x])]

theorem mem_fst_filter_snd {seen : List (Nat × String)} {t : String} {p : Nat} :
    p ∈ (seen.filter (fun e => decide (e.2 = t))).map Prod.fst ↔ (p, t) ∈ seen := by
  constructor
  · intro h
    rcases List.mem_map.1 h with ⟨e, hem, hfst⟩
    rcases List.mem_filter.1 hem with ⟨hes, hsnd⟩
    rw [decide_eq_true_eq] at hsnd
    have : e = (p, t) := by
      cases e
      simp only at hfst hsnd
      rw [hfst, hsnd]
    rw [← this]
    exact hes
  · intro h
    exact List.mem_map.2 ⟨(p, t), List.mem_filter.2 ⟨h, by simp⟩, rfl⟩

theorem recurringLoop_filter {t : String} (ht : t ≠ "") : ∀ (spans : List Span)
    (seen : List (Nat × String)),
    (recurringLoop seen spans).filter (fun e => decide (e.2 = t)) =
      seen.filter (fun e => decide (e.2 = t)) ++
        (dedupSkip ((seen.filter (fun e => decide (e.2 = t))).map Prod.fst)
          ((spans.filter (fun s => inZone s && decide (normalizeText s.text = t))).map
            (fun s => s.page))).map (fun p => (p, t)) := by
  intro spans
  induction spans with
  | nil => intro seen; simp [recurringLoop, dedupSkip]
  | cons s rest ih =>
    intro seen
    show (if inZone s ∧ normalizeText s.text ≠ "" ∧ _ ∉ seen
        then recurringLoop (seen ++ [(s.page, normalizeText s.text)]) rest
        else recurringLoop seen rest).filter _ = _
    by_cases hz : inZone s = true
    · by_cases hnt : normalizeText s.text = t
      · -- the span matches `t`: it contributes `s.page` to the matching pages
        rw [List.filter_cons_of_pos (by simp [hz, hnt]), List.map_cons]
        by_cases hmem : (s.page, normalizeText s.text) ∈ seen
        · rw [if_neg (by intro hc; exact hc.2.2 hmem), ih seen]
          rw [dedupSkip_cons_of_mem (mem_fst_filter_snd.2 (by rw [← hnt]; exact hmem))]
        · rw [if_pos ⟨hz, by rw [hnt]; exact ht, hmem⟩,
            ih (seen ++ [(s.page, normalizeText s.text)]), hnt, List.filter_append]
          have hsing : List.filter (fun e => decide (e.2 = t)) [(s.page, t)] =
              [(s.page, t)] := by simp
          rw [hsing, List.map_append]
          have hpnot : s.page ∉ (seen.filter (fun e => decide (e.2 = t))).map Prod.fst := by
            intro hc
            exact hmem (by rw [hnt]; exact mem_fst_filter_snd.1 hc)
          rw [dedupSkip_cons_of_not_mem hpnot]
          rw [dedupSkip_congr _
            ((seen.filter (fun e => decide (e.2 = t))).map Prod.fst ++
              (List.map Prod.fst [(s.page, t)]))
            (s.page :: (seen.filter (fun e => decide (e.2 = t))).map Prod.fst)
            (by intro x; simp [or_comm])]
          simp
      · -- the span does not match `t`
        rw [List.filter_cons_of_neg (by simp [hnt])]
        split
        · rw [ih (seen ++ [(s.page, normalizeText s.text)]), List.filter_append]
          have hsing : List.filter (fun e => decide (e.2 = t))
              [(s.page, normalizeText s.text)] = [] := by simp [hnt]
          rw [hsing, List.append_nil]
        · exact ih seen
    · -- not in the zone: neither recorded nor matching
      rw [List.filter_cons_of_neg (by simp [hz])]
      rw [if_neg (by intro hc; exact hz hc.1)]
      exact ih seen

theorem recurringLoop_snd_ne : ∀ (spans : List Span) (seen : List (Nat × String)),
    (∀ e ∈ seen, e.2 ≠ "") → ∀ e ∈ recurringLoop seen spans, e.2 ≠ "" := by
  intro spans
  induction spans with
  | nil => intro seen hseen e he; exact hseen e he
  | cons s rest ih =>
    intro seen hseen e he
    show e.2 ≠ ""
    revert he
    show e ∈ (if inZone s ∧ normalizeText s.text ≠ "" ∧ _ ∉ seen then _ else _) → _
    split
    · rename_i hC
      intro he
      refine ih _ ?_ e he
      intro x hx
      rcases List.mem_append.1 hx with hx' | hx'
      · exact hseen x hx'
      · rcases List.mem_singleton.1 hx' with rfl
        exact hC.2.1
    · intro he
      exact ih _ hseen e he

/-- **C5.** The recurring header/footer detector classifies `t` as recurring
iff the document has at least 3 pages, `t` is a non-empty normalized text, and
`t` appears in the top/bottom 8% zone of the nominal 842pt page on at least
`max(2, ⌊total_pages * 0.3⌋)` distinct pages (one count per page per text). -/
theorem isRecurring_iff (spans : List Span) (totalPages : Nat) (t : String) :
    isRecurring spans totalPages t = true ↔
      (3 ≤ totalPages ∧ t ≠ "" ∧
        minRecurringCount totalPages ≤ (zonePages spans t).length) := by
  unfold isRecurring
  by_cases htp : totalPages < 3
  · rw [if_pos htp]
    simp only [Bool.false_eq_true, false_iff]
    intro hc
    omega
  · rw [if_neg htp]
    rw [decide_eq_true_eq]
    by_cases ht : t = ""
    · subst ht
      have hz : ((recurringLoop [] spans).filter (fun e => decide (e.2 = ""))).length = 0 := by
        rw [List.length_eq_zero, List.filter_eq_nil_iff]
        intro e he
        simpa using recurringLoop_snd_ne spans [] (by intro x hx; cases hx) e he
      rw [hz]
      constructor
      · intro hc
        have : (2 : Nat) ≤ 0 := le_trans (le_max_left _ _) hc
        omega
      · intro hc
        exact absurd rfl hc.2.1
    · rw [recurringLoop_filter ht spans []]
      simp only [List.filter_nil, List.map_nil, List.nil_append, List.length_map]
      show minRecurringCount totalPages ≤ (dedupSkip [] _).length ↔ _
      constructor
      · intro hc
        exact ⟨by omega, ht, hc⟩
      · intro hc
        exact hc.2.2

/-! ## Claim C3: the body-size estimator and its tie-break -/

/-- Total character count of the spans set at size `q`. -/
def charCountOf (spans : List Span) (q : ℚ) : Nat :=
  ((spans.filter (fun s => decide (s.size = q))).map (fun s => s.text.length)).sum

theorem mem_of_mem_dedupSkip [DecidableEq α] : ∀ (l avoid : List α) (x : α),
    x ∈ dedupSkip avoid l → x ∈ l ∧ x ∉ avoid := by
  intro l
  induction l with
  | nil => intro avoid x hx; cases hx
  | cons a rest ih =>
    intro avoid x hx
    by_cases hmem : a ∈ avoid
    · rw [dedupSkip_cons_of_mem hmem] at hx
      rcases ih avoid x hx with ⟨h1, h2⟩
      exact ⟨List.mem_cons_of_mem _ h1, h2⟩
    · rw [dedupSkip_cons_of_not_mem hmem] at hx
      rcases List.mem_cons.1 hx with rfl | hx'
      · exact ⟨List.mem_cons_self _ _, hmem⟩
      · rcases ih (a :: avoid) x hx' with ⟨h1, h2⟩
        exact ⟨List.mem_cons_of_mem _ h1, fun hc => h2 (List.mem_cons_of_mem _ hc)⟩

theorem mem_dedupSkip_of_mem [DecidableEq α] : ∀ (l avoid : List α) (x : α),
    x ∈ l → x ∉ avoid → x ∈ dedupSkip avoid l := by
  intro l
  induction l with
  | nil => intro avoid x hx; cases hx
  | cons a rest ih =>
    intro avoid x hx hav
    by_cases hmem : a ∈ avoid
    · rw [dedupSkip_cons_of_mem hmem]
      rcases List.mem_cons.1 hx with rfl | hx'
      · exact absurd hmem hav
      · exact ih avoid x hx' hav
    · rw [dedupSkip_cons_of_not_mem hmem]
      rcases List.mem_cons.1 hx with rfl | hx'
      · exact List.mem_cons_self _ _
      · by_cases hxa : x = a
        · subst hxa; exact List.mem_cons_self _ _
        · exact List.mem_cons_of_mem _
            (ih (a :: avoid) x hx' (by simp [hxa, hav]))

theorem find?_dedupSkip [DecidableEq α] {p : α → Bool} : ∀ (l avoid : List α),
    (∀ a ∈ avoid, p a = false) → (dedupSkip avoid l).find? p = l.find? p := by
  intro l
  induction l with
  | nil => intro avoid _; rfl
  | cons a rest ih =>
    intro avoid hav
    by_cases hmem : a ∈ avoid
    · rw [dedupSkip_cons_of_mem hmem, ih avoid hav,
        List.find?_cons_of_neg _ (by simp [hav a hmem])]
    · rw [dedupSkip_cons_of_not_mem hmem]
      by_cases hpa : p a = true
      · rw [List.find?_cons_of_pos _ hpa, List.find?_cons_of_pos _ hpa]
      · rw [List.find?_cons_of_neg _ hpa, List.find?_cons_of_neg _ hpa]
        refine ih (a :: avoid) ?_
        intro x hx
        rcases List.mem_cons.1 hx with rfl | hx'
        · exact Bool.not_eq_true _ ▸ hpa
        · exact hav x hx'

theorem bumpCount_keys_of_mem {k : ℚ} {v : Nat} : ∀ {acc : List (ℚ × Nat)},
    k ∈ acc.map Prod.fst → (bumpCount k v acc).map Prod.fst = acc.map Prod.fst := by
  intro acc
  induction acc with
  | nil => intro h; cases h
  | cons e rest ih =>
    intro h
    show (if e.1 = k then (e.1, e.2 + v) :: rest else e :: bumpCount k v rest).map Prod.fst = _
    by_cases hek : e.1 = k
    · rw [if_pos hek]
      simp
    · rw [if_neg hek, List.map_cons, List.map_cons, ih]
      rcases List.mem_cons.1 h with h' | h'
      · exact absurd h'.symm hek
      · exact h'

theorem bumpCount_of_not_mem {k : ℚ} {v : Nat} : ∀ {acc : List (ℚ × Nat)},
    k ∉ acc.map Prod.fst → bumpCount k v acc = acc ++ [(k, v)] := by
  intro acc
  induction acc with
  | nil => intro _; rfl
  | cons e rest ih =>
    intro h
    show (if e.1 = k then (e.1, e.2 + v) :: rest else e :: bumpCount k v rest) = _
    rw [if_neg (fun hc => h (by simp [← hc])), ih (fun hc => h (by simp [hc]))]
    rfl

theorem bumpCount_map_of_mem {k : ℚ} {v : Nat} {f : ℚ → Nat} : ∀ {acc : List (ℚ × Nat)},
    (acc.map Prod.fst).Nodup → k ∈ acc.map Prod.fst →
    (bumpCount k v acc).map (fun e => (e.1, e.2 + f e.1)) =
      acc.map (fun e => (e.1, (e.2 + if k = e.1 then v else 0) + f e.1)) := by
  intro acc
  induction acc with
  | nil => intro _ h; cases h
  | cons e rest ih =>
    intro hnd h
    show (if e.1 = k then (e.1, e.2 + v) :: rest else e :: bumpCount k v rest).map _ = _
    by_cases hek : e.1 = k
    · rw [if_pos hek, List.map_cons, List.map_cons]
      congr 1
      · simp [← hek]
      · refine List.map_congr_left ?_
        intro x hx
        have hxk : ¬ (k = x.1) := by
          intro hc
          have hmm : e.1 ∈ rest.map Prod.fst := by
            rw [hek, hc]
            exact List.mem_map.2 ⟨x, hx, rfl⟩
          exact (List.nodup_cons.1 (by simpa using hnd)).1 hmm
        simp [hxk]
    · rw [if_neg hek, List.map_cons, List.map_cons]
      congr 1
      · have hke : ¬ (k = e.1) := fun hc => hek hc.symm
        simp [hke]
      · refine ih (List.nodup_cons.1 (by simpa using hnd)).2 ?_
        rcases List.mem_cons.1 h with h' | h'
        · exact absurd h'.symm hek
        · exact h'

theorem charCountOf_cons (s : Span) (rest : List Span) (q : ℚ) :
    charCountOf (s :: rest) q =
      (if s.size = q then s.text.length else 0) + charCountOf rest q := by
  unfold charCountOf
  by_cases h : s.size = q
  · rw [List.filter_cons_of_pos (by simpa using h), if_pos h, List.map_cons]
    rfl
  · rw [List.filter_cons_of_neg (by simpa using h), if_neg h, Nat.zero_add]

theorem charCountLoop_spec : ∀ (spans : List Span) (acc : List (ℚ × Nat)),
    (acc.map Prod.fst).Nodup →
    charCountLoop acc spans =
      acc.map (fun e => (e.1, e.2 + charCountOf spans e.1)) ++
        (dedupSkip (acc.map Prod.fst) (spans.map (fun s => s.size))).map
          (fun q => (q, charCountOf spans q)) := by
  intro spans
  induction spans with
  | nil =>
    intro acc _
    show acc = acc.map (fun e => (e.1, e.2 + charCountOf [] e.1)) ++ _
    have h1 : ∀ q, charCountOf [] q = 0 := fun q => rfl
    simp [h1, dedupSkip]
  | cons s rest ih =>
    intro acc hnd
    show charCountLoop (bumpCount s.size s.text.length acc) rest = _
    by_cases hk : s.size ∈ acc.map Prod.fst
    · rw [ih (bumpCount s.size s.text.length acc) (by rw [bumpCount_keys_of_mem hk]; exact hnd)]
      rw [bumpCount_keys_of_mem hk]
      rw [bumpCount_map_of_mem hnd hk]
      congr 1
      · refine List.map_congr_left ?_
        intro e _
        rw [charCountOf_cons]
        simp only [Prod.mk.injEq, true_and]
        omega
      · rw [List.map_cons, dedupSkip_cons_of_mem hk]
        refine List.map_congr_left ?_
        intro q hq
        rcases mem_of_mem_dedupSkip _ _ _ hq with ⟨_, hqa⟩
        have hqs : ¬ (s.size = q) := fun hc => hqa (hc ▸ hk)
        rw [charCountOf_cons, if_neg hqs, Nat.zero_add]
    · have hacc' : bumpCount s.size s.text.length acc = acc ++ [(s.size, s.text.length)] :=
        bumpCount_of_not_mem hk
      have hkeys : (bumpCount s.size s.text.length acc).map Prod.fst =
          acc.map Prod.fst ++ [s.size] := by
        rw [hacc']
        simp
      have hnd' : ((bumpCount s.size s.text.length acc).map Prod.fst).Nodup := by
        rw [hkeys, List.nodup_append]
        refine ⟨hnd, List.nodup_singleton _, ?_⟩
        intro x hx hx'
        rcases List.mem_singleton.1 hx' with rfl
        exact hk hx
      rw [ih _ hnd', hacc']
      rw [show (acc ++ [(s.size, s.text.length)]).map Prod.fst =
          acc.map Prod.fst ++ [s.size] by simp]
      rw [List.map_append]
      rw [dedupSkip_congr _ (acc.map Prod.fst ++ [s.size]) (s.size :: acc.map Prod.fst)
        (by intro x; simp [or_comm])]
      conv_rhs => rw [List.map_cons]
      rw [dedupSkip_cons_of_not_mem hk]
      conv_rhs => rw [List.map_cons]
      have h1 : acc.map (fun e : ℚ × Nat => (e.1, e.2 + charCountOf (s :: rest) e.1)) =
          acc.map (fun e => (e.1, e.2 + charCountOf rest e.1)) := by
        refine List.map_congr_left ?_
        intro e he
        have hes : ¬ (s.size = e.1) := by
          intro hc
          exact hk (hc ▸ List.mem_map.2 ⟨e, he, rfl⟩)
        rw [charCountOf_cons, if_neg hes, Nat.zero_add]
      rw [h1]
      have h2 : List.map (fun e : ℚ × Nat => (e.1, e.2 + charCountOf rest e.1))
          [(s.size, s.text.length)] =
          [(s.size, charCountOf (s :: rest) s.size)] := by
        simp [charCountOf_cons]
      rw [h2]
      have h3 : (dedupSkip (s.size :: acc.map Prod.fst) (rest.map (fun s => s.size))).map
          (fun q => (q, charCountOf rest q)) =
          (dedupSkip (s.size :: acc.map Prod.fst) (rest.map (fun s => s.size))).map
          (fun q => (q, charCountOf (s :: rest) q)) := by
        refine List.map_congr_left ?_
        intro q hq
        rcases mem_of_mem_dedupSkip _ _ _ hq with ⟨_, hqa⟩
        have hqs : ¬ (s.size = q) := by
          intro hc
          exact hqa (by rw [← hc]; exact List.mem_cons_self _ _)
        rw [charCountOf_cons, if_neg hqs, Nat.zero_add]
      rw [h3]
      simp [List.append_assoc]

/-- `_char_count_by_size` is the first-occurrence-ordered table of per-size
character totals. -/
theorem charCountBySize_spec (spans : List Span) :
    charCountBySize spans =
      (dedupFirst (spans.map (fun s => s.size))).map
        (fun q => (q, charCountOf spans q)) := by
  have := charCountLoop_spec spans [] (by simp)
  simpa [charCountBySize, dedupFirst] using this

theorem pickMaxCount_spec : ∀ (l : List (ℚ × Nat)) (b : ℚ × Nat),
    pickMaxCount b l ∈ b :: l ∧
    (∀ x ∈ b :: l, x.2 ≤ (pickMaxCount b l).2) ∧
    (b :: l).find? (fun x => decide ((pickMaxCount b l).2 ≤ x.2)) =
      some (pickMaxCount b l) := by
  intro l
  induction l with
  | nil =>
    intro b
    have h0 : pickMaxCount b [] = b := rfl
    rw [h0]
    refine ⟨List.mem_cons_self _ _, ?_, ?_⟩
    · intro x hx
      rcases List.mem_singleton.1 hx with rfl
      exact le_refl _
    · rw [List.find?_cons_of_pos _ (by simp)]
  | cons e rest ih =>
    intro b
    have hunf : pickMaxCount b (e :: rest) = pickMaxCount (if b.2 < e.2 then e else b) rest :=
      rfl
    by_cases hbe : b.2 < e.2
    · rw [hunf, if_pos hbe]
      rcases ih e with ⟨ihm, ihb, ihf⟩
      have her : e.2 ≤ (pickMaxCount e rest).2 := ihb e (List.mem_cons_self _ _)
      refine ⟨List.mem_cons_of_mem _ ihm, ?_, ?_⟩
      · intro x hx
        rcases List.mem_cons.1 hx with rfl | hx'
        · omega
        · exact ihb x hx'
      · rw [List.find?_cons_of_neg _ (by simp only [decide_eq_true_eq]; omega)]
        exact ihf
    · rw [hunf, if_neg hbe]
      rcases ih b with ⟨ihm, ihb, ihf⟩
      have hbr : b.2 ≤ (pickMaxCount b rest).2 := ihb b (List.mem_cons_self _ _)
      have heb : e.2 ≤ b.2 := le_of_not_lt hbe
      refine ⟨?_, ?_, ?_⟩
      · rcases List.mem_cons.1 ihm with heq | hm'
        · rw [heq]
          exact List.mem_cons_self _ _
        · exact List.mem_cons_of_mem _ (List.mem_cons_of_mem _ hm')
      · intro x hx
        rcases List.mem_cons.1 hx with rfl | hx'
        · exact hbr
        · rcases List.mem_cons.1 hx' with rfl | hx''
          · omega
          · exact ihb x (List.mem_cons_of_mem _ hx'')
      · by_cases hrb : (pickMaxCount b rest).2 ≤ b.2
        · have h1 : List.find? (fun x => decide ((pickMaxCount b rest).2 ≤ x.2)) (b :: rest) =
              some b := List.find?_cons_of_pos _ (by simp [hrb])
          rw [List.find?_cons_of_pos _ (by simp [hrb])]
          rw [h1] at ihf
          exact ihf
        · have hre : ¬ ((pickMaxCount b rest).2 ≤ e.2) := by omega
          rw [List.find?_cons_of_neg _ (by simp [hrb]), List.find?_cons_of_neg _ (by simp [hre])]
          rw [List.find?_cons_of_neg _ (by simp [hrb])] at ihf
          exact ihf

/-- **C3 (amended).** The body-size estimator returns a font size whose total
character count is maximal; when several sizes tie for the maximum it returns
the size of the *earliest span* whose size attains the maximum (Counter
insertion order + `max`'s keep-first tie behaviour), not the numerically
largest tied size. -/
theorem findBodySize_spec (spans : List Span) (hne : spans ≠ []) :
    (∀ sp ∈ spans, charCountOf spans sp.size ≤ charCountOf spans (findBodySize spans)) ∧
    (spans.find? (fun sp =>
        decide (charCountOf spans (findBodySize spans) ≤ charCountOf spans sp.size))).map
      (fun sp => sp.size) = some (findBodySize spans) := by
  have hcts : ∃ c0 ctail, charCountBySize spans = c0 :: ctail := by
    rw [charCountBySize_spec]
    cases spans with
    | nil => exact absurd rfl hne
    | cons a l =>
      rw [List.map_cons]
      show ∃ _ _, (dedupSkip [] (a.size :: _)).map _ = _
      rw [dedupSkip_cons_of_not_mem (by simp), List.map_cons]
      exact ⟨_, _, rfl⟩
  obtain ⟨c0, ctail, hcts⟩ := hcts
  have hb : findBodySize spans = (pickMaxCount c0 ctail).1 := by
    unfold findBodySize mostCommonSize
    rw [hcts]
    rfl
  obtain ⟨hmem, hbound, hfind⟩ := pickMaxCount_spec ctail c0
  rw [← hcts] at hmem hbound hfind
  have hshape : ∀ e ∈ charCountBySize spans, e.2 = charCountOf spans e.1 := by
    intro e he
    rw [charCountBySize_spec] at he
    rcases List.mem_map.1 he with ⟨q, _, rfl⟩
    rfl
  have hr2 : (pickMaxCount c0 ctail).2 = charCountOf spans (findBodySize spans) := by
    rw [hb]
    exact hshape _ hmem
  constructor
  · intro sp hsp
    have hmemc : (sp.size, charCountOf spans sp.size) ∈ charCountBySize spans := by
      rw [charCountBySize_spec]
      refine List.mem_map.2 ⟨sp.size, ?_, rfl⟩
      exact mem_dedupSkip_of_mem _ _ _ (List.mem_map.2 ⟨sp, hsp, rfl⟩) (by simp)
    have hle := hbound _ hmemc
    rw [hr2] at hle
    exact hle
  · rw [← hr2, hb]
    rw [charCountBySize_spec] at hfind
    rw [List.find?_map] at hfind
    rw [show ((fun x : ℚ × Nat => decide ((pickMaxCount c0 ctail).2 ≤ x.2)) ∘
        (fun q => (q, charCountOf spans q))) =
        (fun q => decide ((pickMaxCount c0 ctail).2 ≤ charCountOf spans q)) from rfl] at hfind
    rw [dedupFirst] at hfind
    rw [find?_dedupSkip _ _ (by intro a ha; cases ha)] at hfind
    rw [List.find?_map] at hfind
    rcases ho : spans.find? ((fun q => decide ((pickMaxCount c0 ctail).2 ≤
        charCountOf spans q)) ∘ (fun s => s.size)) with _ | sp0
    · rw [ho] at hfind
      simp at hfind
    · rw [ho] at hfind
      simp only [Option.map_some'] at hfind
      have hq : sp0.size = (pickMaxCount c0 ctail).1 :=
        congrArg Prod.fst (Option.some.inj hfind)
      rw [show (fun sp : Span => decide ((pickMaxCount c0 ctail).2 ≤
          charCountOf spans sp.size)) = ((fun q => decide ((pickMaxCount c0 ctail).2 ≤
          charCountOf spans q)) ∘ (fun s => s.size)) from rfl]
      rw [ho, Option.map_some', hq]

/-- Spans with an exact character-count tie between sizes 10 and 14 (two
characters each); size 10 occurs first. -/
def tieSpans : List Span :=
  [{ text := "ab", size := 10, bold := false, font := "F", bbox := ⟨0, 100, 10, 110⟩, page := 0 },
   { text := "cd", size := 14, bold := false, font := "F", bbox := ⟨0, 200, 10, 210⟩, page := 0 }]

/-- **C3 counterexample.** Sizes 10 and 14 tie at 2 characters each, yet
`_find_body_size` returns 10 (the first-encountered size), not the numerically
largest tied size 14 claimed by the spec. -/
theorem findBodySize_tie_cex :
    charCountOf tieSpans 10 = 2 ∧ charCountOf tieSpans 14 = 2 ∧ (10 : ℚ) < 14 ∧
      findBodySize tieSpans = 10 := by
  refine ⟨by decide, by decide, by decide, by decide⟩

/-- Witness for the amended C3 at the concrete tied input. -/
theorem findBodySize_spec_witness :
    (∀ sp ∈ tieSpans, charCountOf tieSpans sp.size ≤
        charCountOf tieSpans (findBodySize tieSpans)) ∧
    (tieSpans.find? (fun sp =>
        decide (charCountOf tieSpans (findBodySize tieSpans) ≤
          charCountOf tieSpans sp.size))).map
      (fun sp => sp.size) = some (findBodySize tieSpans) :=
  findBodySize_spec tieSpans (by decide)

/-! ## Claim C2: the TOC text round trip

The claim as stated fails (see `parseToc_format_cex` below): a title with a
trailing space is parsed back without it.  The amended claim restricts titles
to printable ASCII with no leading or trailing space, which is proved as
`parseToc_formatToc` below. -/

/-- Printable ASCII (0x20–0x7E). -/
def printableChar (c : Char) : Bool :=
  32 ≤ c.toNat && c.toNat ≤ 126

/-- The title restriction of the amended round-trip claim: printable ASCII
with no leading or trailing space. -/
def goodTitle (t : String) : Bool :=
  t.data.all printableChar &&
  !(t.data.head?.getD 'x' == ' ') && !(t.data.getLast?.getD 'x' == ' ')

/-- The heading restriction of the amended round-trip claim. -/
def goodHeading (h : Heading) : Bool :=
  decide (1 ≤ h.level) && goodTitle h.text

theorem char_eq_of_toNat {c d : Char} (h : c.toNat = d.toNat) : c = d := by
  apply Char.ext
  exact UInt32.ext h

theorem printable_not_space {c : Char} (hp : printableChar c = true) (hne : c ≠ ' ') :
    isSpaceChar c = false := by
  simp only [printableChar, Bool.and_eq_true, decide_eq_true_eq] at hp
  have h32 : c.toNat ≠ 32 := fun hc => hne (char_eq_of_toNat (by rw [hc]; rfl))
  simp only [isSpaceChar, Bool.or_eq_false_iff, Bool.and_eq_false_iff,
    decide_eq_false_iff_not]
  omega

theorem printable_not_splitter {c : Char} (hp : printableChar c = true) :
    splitterChar c = false := by
  simp only [printableChar, Bool.and_eq_true, decide_eq_true_eq] at hp
  simp only [splitterChar, Bool.or_eq_false_iff, decide_eq_false_iff_not]
  omega

theorem digit_not_space {c : Char} (h : isDigitChar c = true) : isSpaceChar c = false := by
  simp only [isDigitChar, Bool.and_eq_true, decide_eq_true_eq] at h
  simp only [isSpaceChar, Bool.or_eq_false_iff, Bool.and_eq_false_iff,
    decide_eq_false_iff_not]
  omega

theorem digit_printable {c : Char} (h : isDigitChar c = true) : printableChar c = true := by
  simp only [isDigitChar, Bool.and_eq_true, decide_eq_true_eq] at h
  simp only [printableChar, Bool.and_eq_true, decide_eq_true_eq]
  omega

theorem digit_ne_lparen {c : Char} (h : isDigitChar c = true) : c ≠ '(' := by
  intro hc
  subst hc
  cases h

theorem digit_ne_rparen {c : Char} (h : isDigitChar c = true) : c ≠ ')' := by
  intro hc
  subst hc
  cases h

theorem mem_of_getLast?_eq : ∀ {l : List Char} {a : Char}, l.getLast? = some a → a ∈ l := by
  intro l
  induction l with
  | nil => intro a h; cases h
  | cons x xs ih =>
    intro a h
    rw [List.getLast?_cons] at h
    injection h with h2
    cases hx : xs.getLast? with
    | none =>
      rw [hx] at h2
      simp only [Option.getD_none] at h2
      exact h2 ▸ List.mem_cons_self _ _
    | some b =>
      rw [hx] at h2
      simp only [Option.getD_some] at h2
      exact List.mem_cons_of_mem _ (h2 ▸ ih hx)

theorem getLast?_cons_of_ne {c : Char} {u : List Char} (h : u ≠ []) :
    (c :: u).getLast? = u.getLast? := by
  rw [List.getLast?_cons]
  cases hx : u.getLast? with
  | none => exact absurd (List.getLast?_isSome.2 h) (by simp [hx])
  | some b => simp

/-! ### Decimal digits -/

theorem digitsToNat_append_digit (xs : List Char) (c : Char) :
    digitsToNat (xs ++ [c]) = 10 * digitsToNat xs + (c.toNat - 48) := by
  unfold digitsToNat
  rw [List.foldl_append]
  rfl

theorem digitChar_spec {n : Nat} (h : n < 10) :
    isDigitChar (digitChar n) = true ∧ (digitChar n).toNat = 48 + n := by
  interval_cases n <;> exact ⟨by decide, by decide⟩

theorem natDigitsAux_spec : ∀ (fuel n : Nat), n < fuel →
    digitsToNat (natDigitsAux fuel n) = n ∧
    (∀ c ∈ natDigitsAux fuel n, isDigitChar c = true) ∧
    natDigitsAux fuel n ≠ [] := by
  intro fuel
  induction fuel with
  | zero => intro n h; omega
  | succ f ih =>
    intro n h
    have hunf : natDigitsAux (f + 1) n =
        if n < 10 then [digitChar n]
        else natDigitsAux f (n / 10) ++ [digitChar (n % 10)] := rfl
    by_cases h10 : n < 10
    · rw [hunf, if_pos h10]
      refine ⟨?_, ?_, by simp⟩
      · show digitsToNat [digitChar n] = n
        rw [show ([digitChar n] : List Char) = [] ++ [digitChar n] from rfl,
          digitsToNat_append_digit]
        rw [(digitChar_spec h10).2]
        show 10 * digitsToNat [] + (48 + n - 48) = n
        have hz : digitsToNat [] = 0 := rfl
        rw [hz]
        omega
      · intro c hc
        rcases List.mem_singleton.1 hc with rfl
        exact (digitChar_spec h10).1
    · have hrec : n / 10 < f := by
        have h1 : n / 10 < n := Nat.div_lt_self (by omega) (by omega)
        omega
      rcases ih (n / 10) hrec with ⟨ih1, ih2, ih3⟩
      rw [hunf, if_neg h10]
      refine ⟨?_, ?_, by simp⟩
      · rw [digitsToNat_append_digit, ih1, (digitChar_spec (Nat.mod_lt n (by omega))).2]
        omega
      · intro c hc
        rcases List.mem_append.1 hc with hc' | hc'
        · exact ih2 c hc'
        · rcases List.mem_singleton.1 hc' with rfl
          exact (digitChar_spec (Nat.mod_lt n (by omega))).1

theorem natDigits_spec (n : Nat) :
    digitsToNat (natDigits n) = n ∧ (∀ c ∈ natDigits n, isDigitChar c = true) ∧
      natDigits n ≠ [] :=
  natDigitsAux_spec (n + 1) n (Nat.lt_succ_self n)

/-! ### The deterministic regex tail -/

theorem checkRest_tail {d : List Char} (hd : d ≠ []) (hdig : ∀ c ∈ d, isDigitChar c = true) :
    checkRest (' ' :: ' ' :: '(' :: 'p' :: '.' :: ' ' :: (d ++ [')'])) =
      some (digitsToNat d) := by
  obtain ⟨c, d', rfl⟩ : ∃ c d', d = c :: d' := by
    cases d with
    | nil => exact absurd rfl hd
    | cons c d' => exact ⟨c, d', rfl⟩
  have hform : (' ' :: ' ' :: '(' :: 'p' :: '.' :: ' ' :: ((c :: d') ++ [')'])) =
      ([' ', ' '] ++ '(' :: ('p' :: '.' :: ' ' :: ((c :: d') ++ [')']))) := rfl
  rw [hform]
  unfold checkRest
  rw [takeWhile_all_append (by decide) (by decide),
    dropWhile_all_append (by decide) (by decide)]
  rw [if_neg (by decide)]
  show (if '(' = '(' ∧ 'p' = 'p' ∧ '.' = '.' then _ else none) = _
  rw [if_pos ⟨rfl, rfl, rfl⟩]
  have hr3 : ('p' :: '.' :: ' ' :: ((c :: d') ++ [')'])).drop 2 = ' ' :: ((c :: d') ++ [')']) :=
    rfl
  have hdw : (' ' :: ((c :: d') ++ [')'])).dropWhile isSpaceChar = (c :: d') ++ [')'] := by
    rw [show (' ' :: ((c :: d') ++ [')'])) = ([' '] ++ c :: (d' ++ [')'])) from rfl]
    exact dropWhile_all_append (by decide) (digit_not_space (hdig c (by simp)))
  rw [hdw]
  have htw2 : ((c :: d') ++ [')']).takeWhile isDigitChar = c :: d' :=
    takeWhile_all_append hdig (by decide)
  have hdw2 : ((c :: d') ++ [')']).dropWhile isDigitChar = [')'] :=
    dropWhile_all_append hdig (by decide)
  dsimp only
  rw [htw2, hdw2]
  rw [if_neg (by simp)]
  show (if ')' = ')' ∧ List.all [] isSpaceChar = true then _ else none) = _
  rw [if_pos ⟨rfl, by decide⟩]

theorem checkRest_inv {m : List Char} {p : Nat} (h : checkRest m = some p) :
    m.count '(' = 1 ∧ ∃ r2, m.dropWhile isSpaceChar = '(' :: 'p' :: '.' :: r2 := by
  unfold checkRest at h
  split at h
  · cases h
  · rename_i hlen
    split at h
    case h_2 => cases h
    rename_i c1 c2 c3 r2 hm
    split at h
    · rename_i hlit
      obtain ⟨rfl, rfl, rfl⟩ := hlit
      refine ⟨?_, r2, hm⟩
      dsimp only at h
      split at h
      · cases h
      · rename_i hds
        split at h
        case h_2 => cases h
        rename_i c4 r5 hr4
        split at h
        · rename_i hc4
          obtain ⟨rfl, hr5⟩ := hc4
          have hsplit : m = m.takeWhile isSpaceChar ++ ('(' :: 'p' :: '.' :: r2) := by
            rw [← hm, List.takeWhile_append_dropWhile]
          have h0 : m.count '(' =
              (m.takeWhile isSpaceChar).count '(' + ('(' :: 'p' :: '.' :: r2).count '(' := by
            rw [← List.count_append, ← hsplit]
          have h1 : (m.takeWhile isSpaceChar).count '(' = 0 := by
            rw [List.count_eq_zero]
            intro hc
            have := List.mem_takeWhile_imp hc
            cases this
          have hsplit2 : r2 = r2.takeWhile isSpaceChar ++
              ((r2.dropWhile isSpaceChar).takeWhile isDigitChar ++ (')' :: r5)) := by
            conv_lhs => rw [← List.takeWhile_append_dropWhile (p := isSpaceChar) (l := r2)]
            congr 1
            conv_lhs => rw [← List.takeWhile_append_dropWhile (p := isDigitChar)
              (l := r2.dropWhile isSpaceChar)]
            rw [hr4]
          have h2 : r2.count '(' = 0 := by
            rw [List.count_eq_zero]
            intro hc
            rw [hsplit2] at hc
            rcases List.mem_append.1 hc with hc' | hc'
            · have := List.mem_takeWhile_imp hc'
              cases this
            · rcases List.mem_append.1 hc' with hc'' | hc''
              · have := List.mem_takeWhile_imp hc''
                cases this
              · rcases List.mem_cons.1 hc'' with heq | hc3
                · cases heq
                · rw [List.all_eq_true] at hr5
                  have := hr5 _ hc3
                  cases this
          rw [h0, h1]
          rw [show ('(' :: 'p' :: '.' :: r2).count '(' = r2.count '(' + 1 by
            simp [List.count_cons]]
          rw [h2]
        · cases h
    · cases h

/-- The fixed suffix appended by `format_toc` after the title. -/
def pageTail (d : List Char) : List Char :=
  ' ' :: ' ' :: '(' :: 'p' :: '.' :: ' ' :: (d ++ [')'])

theorem lparen_mem_pageTail (d : List Char) : '(' ∈ pageTail d := by
  simp [pageTail]

theorem count_lparen_pageTail {d : List Char} (hdig : ∀ c ∈ d, isDigitChar c = true) :
    (pageTail d).count '(' = 1 := by
  show (' ' :: ' ' :: '(' :: 'p' :: '.' :: ' ' :: (d ++ [')'])).count '(' = 1
  simp only [List.count_cons, List.count_append]
  have hd0 : d.count '(' = 0 := by
    rw [List.count_eq_zero]
    intro hc
    exact digit_ne_lparen (hdig _ hc) rfl
  rw [hd0]
  decide

/-- `checkRest` fails on every strict suffix of the line that still starts
inside the title: the leftover title characters cannot be absorbed by the
pattern tail. -/
theorem checkRest_mid_none {u : List Char} (hu : u ≠ [])
    (hp : ∀ x ∈ u, printableChar x = true) (hl : u.getLast? ≠ some ' ')
    {d : List Char} (hdig : ∀ c ∈ d, isDigitChar c = true) :
    checkRest (u ++ pageTail d) = none := by
  cases hc : checkRest (u ++ pageTail d) with
  | none => rfl
  | some p =>
    exfalso
    rcases checkRest_inv hc with ⟨hcount, r2, hdrop⟩
    by_cases hin : '(' ∈ u
    · have h1 : 1 ≤ u.count '(' := List.count_pos_iff.2 hin
      rw [List.count_append, count_lparen_pageTail hdig] at hcount
      omega
    · -- the last character of `u` is printable and not a space
      obtain ⟨a, ha⟩ : ∃ a, u.getLast? = some a :=
        Option.isSome_iff_exists.1 (List.getLast?_isSome.2 hu)
      have hamem : a ∈ u := mem_of_getLast?_eq ha
      have hans : isSpaceChar a = false :=
        printable_not_space (hp a hamem) (fun hc' => hl (hc' ▸ ha))
      rcases dropWhile_append_of_exists ⟨a, hamem, hans⟩ (pageTail d) with ⟨hda, hne⟩
      rw [hda] at hdrop
      obtain ⟨c0, w, hw⟩ : ∃ c0 w, u.dropWhile isSpaceChar = c0 :: w := by
        cases hx : u.dropWhile isSpaceChar with
        | nil => exact absurd hx hne
        | cons c0 w => exact ⟨c0, w, rfl⟩
      rw [hw] at hdrop
      have hc0 : c0 = '(' := by
        have := congrArg List.head? hdrop
        simpa using this
      have hc0mem : c0 ∈ u := by
        have hsub : (u.dropWhile isSpaceChar).Sublist u := List.dropWhile_sublist _
        exact hsub.subset (hw ▸ List.mem_cons_self _ _)
      exact hin (hc0 ▸ hc0mem)

/-- The lazy group-2 search on `title ++ pageTail`: the shortest match is the
whole title, and the page number is decoded from the digits. -/
theorem lazyScan_title {d : List Char} (hd : d ≠ [])
    (hdig : ∀ c ∈ d, isDigitChar c = true) :
    ∀ (u : List Char) (i : Nat), (∀ x ∈ u, printableChar x = true) →
    u.getLast? ≠ some ' ' →
    lazyScanAux i (u ++ pageTail d) = some (i + u.length, digitsToNat d) := by
  intro u
  induction u with
  | nil =>
    intro i _ _
    show lazyScanAux i (pageTail d) = _
    have hck : checkRest (pageTail d) = some (digitsToNat d) := checkRest_tail hd hdig
    cases hpt : pageTail d with
    | nil => cases hpt
    | cons c r =>
      rw [hpt] at hck
      show (match checkRest (c :: r) with
        | some p => some (i, p)
        | none => lazyScanAux (i + 1) r) = _
      rw [hck]
      simp
  | cons c u' ih =>
    intro i hp hl
    have hck : checkRest ((c :: u') ++ pageTail d) = none :=
      checkRest_mid_none (by simp) hp hl hdig
    show (match checkRest ((c :: u') ++ pageTail d) with
      | some p => some (i, p)
      | none => lazyScanAux (i + 1) (u' ++ pageTail d)) = _
    rw [hck]
    by_cases hu' : u' = []
    · subst hu'
      show lazyScanAux (i + 1) (pageTail d) = _
      have hck2 : checkRest (pageTail d) = some (digitsToNat d) := checkRest_tail hd hdig
      cases hpt : pageTail d with
      | nil => cases hpt
      | cons c2 r =>
        rw [hpt] at hck2
        show (match checkRest (c2 :: r) with
          | some p => some (i + 1, p)
          | none => lazyScanAux (i + 1 + 1) r) = _
        rw [hck2]
        simp
    · have hih := ih (i + 1) (fun x hx => hp x (by simp [hx]))
        (by rw [← getLast?_cons_of_ne (c := c) hu']; exact hl)
      have harith : i + 1 + u'.length = i + (c :: u').length := by
        simp only [List.length_cons]
        omega
      rw [hih, harith]

/-! ### Greedy group-1 search -/

/-- No two adjacent whitespace characters: on such a list every suffix's
leading whitespace run is shorter than 2, so the regex tail can never match. -/
def noTwoSpaces : List Char → Bool
  | [] => true
  | [_] => true
  | c1 :: c2 :: rest => !(isSpaceChar c1 && isSpaceChar c2) && noTwoSpaces (c2 :: rest)

theorem takeWhile_short_of_noTwoSpaces : ∀ {l : List Char}, noTwoSpaces l = true →
    (l.takeWhile isSpaceChar).length ≤ 1 := by
  intro l
  match l with
  | [] => intro _; simp
  | [c] =>
    intro _
    rw [List.takeWhile_cons]
    split <;> simp
  | c1 :: c2 :: rest =>
    intro h
    simp only [noTwoSpaces, Bool.and_eq_true, Bool.not_eq_eq_eq_not, Bool.not_true,
      Bool.and_eq_false_iff] at h
    rw [List.takeWhile_cons]
    split
    · rename_i hc1
      rcases h.1 with hf | hf
      · rw [hc1] at hf; cases hf
      · rw [List.takeWhile_cons, hf]
        simp
    · simp

theorem checkRest_none_of_noTwoSpaces {l : List Char} (h : noTwoSpaces l = true) :
    checkRest l = none := by
  unfold checkRest
  rw [if_pos]
  have := takeWhile_short_of_noTwoSpaces h
  omega

theorem noTwoSpaces_tail {c : Char} {rest : List Char}
    (h : noTwoSpaces (c :: rest) = true) : noTwoSpaces rest = true := by
  cases rest with
  | nil => rfl
  | cons c2 r =>
    simp only [noTwoSpaces, Bool.and_eq_true] at h
    exact h.2

theorem lazyScan_none_of_noTwoSpaces : ∀ (l : List Char) (i : Nat),
    noTwoSpaces l = true → lazyScanAux i l = none := by
  intro l
  induction l with
  | nil =>
    intro i _
    show (match checkRest [] with
      | some p => some (i, p)
      | none => none) = none
    rfl
  | cons c r ih =>
    intro i h
    show (match checkRest (c :: r) with
      | some p => some (i, p)
      | none => lazyScanAux (i + 1) r) = none
    rw [checkRest_none_of_noTwoSpaces h]
    exact ih (i + 1) (noTwoSpaces_tail h)

theorem noTwoSpaces_digits_append {d : List Char} (hdig : ∀ c ∈ d, isDigitChar c = true) :
    ∀ {c : Char}, isSpaceChar c = false → noTwoSpaces (c :: (d ++ [')'])) = true := by
  induction d with
  | nil =>
    intro c hc
    show (!(isSpaceChar c && isSpaceChar ')') && noTwoSpaces [')']) = true
    rw [hc]
    rfl
  | cons c0 d' ih =>
    intro c hc
    show (!(isSpaceChar c && isSpaceChar c0) && noTwoSpaces (c0 :: (d' ++ [')']))) = true
    rw [hc, ih (fun x hx => hdig x (by simp [hx])) (digit_not_space (hdig c0 (by simp)))]
    rfl

/-- Dropping the unmatchable suffixes of the page marker: `(p. N)` and
`␣(p. N)` contain no double space, so the lazy scan fails on them. -/
theorem lazyScan_marker_none {d : List Char} (hdig : ∀ c ∈ d, isDigitChar c = true)
    (i : Nat) :
    lazyScanAux i ('(' :: 'p' :: '.' :: ' ' :: (d ++ [')'])) = none ∧
    lazyScanAux i (' ' :: '(' :: 'p' :: '.' :: ' ' :: (d ++ [')'])) = none := by
  have h1 : noTwoSpaces ('(' :: 'p' :: '.' :: ' ' :: (d ++ [')'])) = true := by
    show (!(isSpaceChar '(' && isSpaceChar 'p') &&
      (!(isSpaceChar 'p' && isSpaceChar '.') &&
        (!(isSpaceChar '.' && isSpaceChar ' ') &&
          noTwoSpaces (' ' :: (d ++ [')']))))) = true
    cases d with
    | nil =>
      rfl
    | cons c0 d' =>
      have h2 : noTwoSpaces (' ' :: ((c0 :: d') ++ [')'])) = true := by
        show (!(isSpaceChar ' ' && isSpaceChar c0) &&
          noTwoSpaces (c0 :: (d' ++ [')']))) = true
        rw [digit_not_space (hdig c0 (by simp)),
          noTwoSpaces_digits_append (fun x hx => hdig x (by simp [hx]))
            (digit_not_space (hdig c0 (by simp)))]
        rfl
      rw [h2]
      rfl
  have h2 : noTwoSpaces (' ' :: '(' :: 'p' :: '.' :: ' ' :: (d ++ [')'])) = true := by
    show (!(isSpaceChar ' ' && isSpaceChar '(') &&
      noTwoSpaces ('(' :: 'p' :: '.' :: ' ' :: (d ++ [')']))) = true
    rw [h1]
    rfl
  exact ⟨lazyScan_none_of_noTwoSpaces _ i h1, lazyScan_none_of_noTwoSpaces _ i h2⟩

theorem greedyScan_hit (line rest : List Char) (n g2 p : Nat)
    (hdrop : line.drop n = rest) (h : lazyScanAux 0 rest = some (g2, p)) :
    greedyScan line n = some (n, g2, p) := by
  cases n with
  | zero =>
    show (match lazyScanAux 0 line with
      | some (g2, p) => some (0, g2, p)
      | none => none) = _
    rw [show line = rest from by simpa using hdrop, h]
  | succ g =>
    show (match lazyScanAux 0 (line.drop (g + 1)) with
      | some (g2, p) => some (g + 1, g2, p)
      | none => greedyScan line g) = _
    rw [hdrop, h]

theorem greedyScan_miss (line : List Char) (g : Nat)
    (h : lazyScanAux 0 (line.drop (g + 1)) = none) :
    greedyScan line (g + 1) = greedyScan line g := by
  show (match lazyScanAux 0 (line.drop (g + 1)) with
    | some (g2, p) => some (g + 1, g2, p)
    | none => greedyScan line g) = _
  rw [h]

theorem goodTitle_parts {t : String} (hgt : goodTitle t = true) :
    (∀ x ∈ t.data, printableChar x = true) ∧ t.data.head? ≠ some ' ' ∧
      t.data.getLast? ≠ some ' ' := by
  simp only [goodTitle, Bool.and_eq_true, Bool.not_eq_eq_eq_not, Bool.not_true,
    beq_eq_false_iff_ne, ne_eq, List.all_eq_true] at hgt
  refine ⟨hgt.1.1, ?_, ?_⟩
  · intro hc
    exact hgt.1.2 (by rw [hc]; rfl)
  · intro hc
    exact hgt.2 (by rw [hc]; rfl)

theorem matchTocLine_format {h : Heading} (hgt : goodTitle h.text = true) :
    matchTocLine (formatLine h) =
      some (2 * (h.level - 1), h.text.data, h.page + 1) := by
  rcases goodTitle_parts hgt with ⟨hall, hhead, hlast⟩
  obtain ⟨hdv, hddig, hdne⟩ := natDigits_spec (h.page + 1)
  have hfmt : formatLine h = List.replicate (2 * (h.level - 1)) ' ' ++
      (h.text.data ++ pageTail (natDigits (h.page + 1))) := by
    unfold formatLine pageTail
    rw [List.append_assoc]
  have hlazy : lazyScanAux 0 (h.text.data ++ pageTail (natDigits (h.page + 1))) =
      some (0 + h.text.data.length, h.page + 1) := by
    rw [lazyScan_title hdne hddig h.text.data 0 hall hlast, hdv]
  cases htd : h.text.data with
  | cons t0 trest =>
    -- non-empty title: the space prefix of the line is exactly the indent
    have ht0 : ¬ (t0 = ' ') := by
      intro hc
      refine hhead ?_
      rw [htd, hc]
      rfl
    have htw : (formatLine h).takeWhile (fun c => decide (c = ' ')) =
        List.replicate (2 * (h.level - 1)) ' ' := by
      rw [hfmt, htd, List.cons_append]
      exact takeWhile_all_append
        (by
          intro a ha
          rw [List.eq_of_mem_replicate ha]
          simp)
        (by simp [ht0])
    have hdrop : (formatLine h).drop (2 * (h.level - 1)) =
        h.text.data ++ pageTail (natDigits (h.page + 1)) := by
      rw [hfmt]
      exact List.drop_left' (List.length_replicate _ _)
    unfold matchTocLine
    rw [htw, List.length_replicate, greedyScan_hit _ _ _ _ _ hdrop hlazy]
    dsimp only
    rw [hdrop]
    simp only [Nat.zero_add]
    rw [List.take_left' rfl, htd]
  | nil =>
    -- empty title: the space prefix extends two characters into the marker,
    -- and the greedy search backtracks twice
    rw [htd] at hlazy
    simp only [List.nil_append, List.length_nil, Nat.add_zero] at hlazy
    have hfmt2 : formatLine h = (List.replicate (2 * (h.level - 1)) ' ' ++ [' ', ' ']) ++
        ('(' :: 'p' :: '.' :: ' ' :: (natDigits (h.page + 1) ++ [')'])) := by
      rw [hfmt, htd]
      simp [pageTail, List.append_assoc]
    have htw : (formatLine h).takeWhile (fun c => decide (c = ' ')) =
        List.replicate (2 * (h.level - 1)) ' ' ++ [' ', ' '] := by
      rw [hfmt2]
      exact takeWhile_all_append
        (by
          intro a ha
          rcases List.mem_append.1 ha with ha' | ha'
          · rw [List.eq_of_mem_replicate ha']
            simp
          · rcases List.mem_cons.1 ha' with rfl | ha''
            · simp
            · rcases List.mem_singleton.1 ha'' with rfl
              simp)
        (by simp)
    have hlen2 : (List.replicate (2 * (h.level - 1)) ' ' ++ [' ', ' ']).length =
        2 * (h.level - 1) + 2 := by simp
    have hd2 : (formatLine h).drop (2 * (h.level - 1) + 2) =
        '(' :: 'p' :: '.' :: ' ' :: (natDigits (h.page + 1) ++ [')']) := by
      rw [hfmt2]
      exact List.drop_left' hlen2
    have hd1 : (formatLine h).drop (2 * (h.level - 1) + 1) =
        ' ' :: '(' :: 'p' :: '.' :: ' ' :: (natDigits (h.page + 1) ++ [')']) := by
      rw [hfmt, htd, List.nil_append]
      rw [show List.replicate (2 * (h.level - 1)) ' ' ++ pageTail (natDigits (h.page + 1)) =
          (List.replicate (2 * (h.level - 1)) ' ' ++ [' ']) ++
            (' ' :: '(' :: 'p' :: '.' :: ' ' :: (natDigits (h.page + 1) ++ [')'])) by
        simp [pageTail, List.append_assoc]]
      exact List.drop_left' (by simp)
    have hd0 : (formatLine h).drop (2 * (h.level - 1)) =
        pageTail (natDigits (h.page + 1)) := by
      rw [hfmt, htd, List.nil_append]
      exact List.drop_left' (List.length_replicate _ _)
    unfold matchTocLine
    rw [htw, hlen2]
    have hm2 : lazyScanAux 0 ((formatLine h).drop (2 * (h.level - 1) + 1 + 1)) = none := by
      have hee : 2 * (h.level - 1) + 1 + 1 = 2 * (h.level - 1) + 2 := rfl
      rw [hee, hd2]
      exact (lazyScan_marker_none hddig 0).1
    have hm1 : lazyScanAux 0 ((formatLine h).drop (2 * (h.level - 1) + 1)) = none := by
      rw [hd1]
      exact (lazyScan_marker_none hddig 0).2
    have hee2 : 2 * (h.level - 1) + 2 = 2 * (h.level - 1) + 1 + 1 := rfl
    rw [hee2, greedyScan_miss _ _ hm2, greedyScan_miss _ _ hm1,
      greedyScan_hit _ _ _ _ _ hd0 hlazy]
    dsimp only
    rw [hd0]
    simp

/-! ### Stripping, line splitting, and the full round trip -/

theorem dropWhile_eq_self_of_head {l : List Char} {c : Char} (hh : l.head? = some c)
    (hc : isSpaceChar c = false) : l.dropWhile isSpaceChar = l := by
  cases l with
  | nil => rfl
  | cons a r =>
    injection hh with hh2
    rw [List.dropWhile_cons, hh2, hc]
    simp

theorem stripList_eq_self {l : List Char} (hp : ∀ x ∈ l, printableChar x = true)
    (hh : l.head? ≠ some ' ') (hl : l.getLast? ≠ some ' ') :
    stripList l = l := by
  unfold stripList
  cases l with
  | nil => rfl
  | cons a r =>
    have ha : isSpaceChar a = false := by
      refine printable_not_space (hp a (by simp)) ?_
      intro hc
      refine hh ?_
      rw [hc]
      rfl
    rw [dropWhile_eq_self_of_head (l := a :: r) rfl ha]
    obtain ⟨b, hb⟩ : ∃ b, (a :: r).getLast? = some b :=
      Option.isSome_iff_exists.1 (List.getLast?_isSome.2 (by simp))
    have hbr : (a :: r).reverse.head? = some b := by
      rw [List.head?_reverse]
      exact hb
    have hbn : isSpaceChar b = false := by
      refine printable_not_space (hp b (mem_of_getLast?_eq hb)) ?_
      intro hc
      exact hl (hc ▸ hb)
    rw [dropWhile_eq_self_of_head hbr hbn, List.reverse_reverse]

theorem mem_stripList_of_mem {l : List Char} {c : Char} (hm : c ∈ l)
    (hc : isSpaceChar c = false) : c ∈ stripList l := by
  unfold stripList
  rw [List.mem_reverse]
  apply mem_dropWhile_of_mem _ hc
  rw [List.mem_reverse]
  exact mem_dropWhile_of_mem hm hc

theorem lparen_mem_formatLine (h : Heading) : '(' ∈ formatLine h := by
  unfold formatLine
  simp

theorem stripList_formatLine_ne (h : Heading) : stripList (formatLine h) ≠ [] := by
  intro hc
  have := mem_stripList_of_mem (lparen_mem_formatLine h) (by decide)
  rw [hc] at this
  cases this

theorem formatLine_no_splitter {h : Heading} (hgt : goodTitle h.text = true) :
    ∀ c ∈ formatLine h, splitterChar c = false := by
  rcases goodTitle_parts hgt with ⟨hall, _, _⟩
  obtain ⟨_, hddig, _⟩ := natDigits_spec (h.page + 1)
  intro c hc
  unfold formatLine at hc
  rcases List.mem_append.1 hc with hc' | hc'
  · rcases List.mem_append.1 hc' with hc'' | hc''
    · rw [List.eq_of_mem_replicate hc'']
      decide
    · exact printable_not_splitter (hall c hc'')
  · rcases List.mem_cons.1 hc' with rfl | hc2
    · decide
    · rcases List.mem_cons.1 hc2 with rfl | hc3
      · decide
      · rcases List.mem_cons.1 hc3 with rfl | hc4
        · decide
        · rcases List.mem_cons.1 hc4 with rfl | hc5
          · decide
          · rcases List.mem_cons.1 hc5 with rfl | hc6
            · decide
            · rcases List.mem_cons.1 hc6 with rfl | hc7
              · decide
              · rcases List.mem_append.1 hc7 with hc8 | hc8
                · exact printable_not_splitter (digit_printable (hddig c hc8))
                · rcases List.mem_singleton.1 hc8 with rfl
                  decide

theorem splitLinesAux_cons_nonsplit {c : Char} {rest acc : List Char}
    (hs : splitterChar c = false) (hne : rest ≠ []) :
    splitLinesAux (c :: rest) acc = splitLinesAux rest (c :: acc) := by
  have h13 : c.toNat ≠ 13 := by
    intro hc
    simp [splitterChar, hc] at hs
  cases rest with
  | nil => exact absurd rfl hne
  | cons c2 r2 =>
    show (if c.toNat = 13 then _ else if splitterChar c then _ else
      splitLinesAux (c2 :: r2) (c :: acc)) = _
    rw [if_neg h13, hs]
    simp

theorem splitLinesAux_newline : ∀ (rest acc : List Char),
    splitLinesAux ('\n' :: rest) acc = acc.reverse :: splitLinesAux rest [] := by
  intro rest acc
  cases rest with
  | nil =>
    show (if ('\n').toNat = 13 ∨ splitterChar '\n' then [acc.reverse]
      else [('\n' :: acc).reverse]) = _
    rw [if_pos (by decide)]
    rfl
  | cons c2 r2 =>
    show (if ('\n').toNat = 13 then _ else if splitterChar '\n' then
      acc.reverse :: splitLinesAux (c2 :: r2) [] else _) = _
    rw [if_neg (by decide), if_pos (by decide)]

theorem splitLinesAux_line_append : ∀ (l : List Char), (∀ c ∈ l, splitterChar c = false) →
    ∀ (rest acc : List Char),
    splitLinesAux (l ++ '\n' :: rest) acc = (acc.reverse ++ l) :: splitLinesAux rest [] := by
  intro l
  induction l with
  | nil =>
    intro _ rest acc
    rw [List.nil_append, splitLinesAux_newline]
    simp
  | cons c l' ih =>
    intro hfree rest acc
    rw [List.cons_append,
      splitLinesAux_cons_nonsplit (hfree c (by simp)) (by simp),
      ih (fun x hx => hfree x (by simp [hx])) rest (c :: acc)]
    simp

theorem splitLines_join : ∀ (lines : List (List Char)), lines ≠ [] →
    (∀ l ∈ lines, ∀ c ∈ l, splitterChar c = false) →
    splitLines (joinLines lines ++ ['\n']) = lines := by
  intro lines
  induction lines with
  | nil => intro h _; exact absurd rfl h
  | cons l rest ih =>
    intro _ hfree
    cases rest with
    | nil =>
      show splitLinesAux (l ++ '\n' :: []) [] = [l]
      rw [splitLinesAux_line_append l (hfree l (by simp)) [] []]
      rfl
    | cons l2 rest2 =>
      have hjoin : joinLines (l :: l2 :: rest2) = l ++ '\n' :: joinLines (l2 :: rest2) := rfl
      show splitLinesAux (joinLines (l :: l2 :: rest2) ++ ['\n']) [] = _
      rw [hjoin]
      have hassoc : (l ++ '\n' :: joinLines (l2 :: rest2)) ++ ['\n'] =
          l ++ '\n' :: (joinLines (l2 :: rest2) ++ ['\n']) := by
        simp
      rw [hassoc, splitLinesAux_line_append l (hfree l (by simp)) _ []]
      have hrec : splitLinesAux (joinLines (l2 :: rest2) ++ ['\n']) [] =
          splitLines (joinLines (l2 :: rest2) ++ ['\n']) := rfl
      rw [hrec, ih (by simp) (fun x hx => hfree x (by simp [hx]))]
      simp

theorem string_mk_data (s : String) : String.mk s.data = s := by
  cases s
  rfl

theorem parseTocAux_format : ∀ (hs : List Heading) (n : Nat),
    (∀ x ∈ hs, goodHeading x = true) →
    parseTocAux n (hs.map formatLine) = Except.ok hs := by
  intro hs
  induction hs with
  | nil => intro n _; rfl
  | cons h hs' ih =>
    intro n hgood
    have hgh : goodHeading h = true := hgood h (by simp)
    have hlev : 1 ≤ h.level := by
      have := hgh
      simp only [goodHeading, Bool.and_eq_true, decide_eq_true_eq] at this
      exact this.1
    have hgt : goodTitle h.text = true := by
      have := hgh
      simp only [goodHeading, Bool.and_eq_true] at this
      exact this.2
    rcases goodTitle_parts hgt with ⟨hall, hhead, hlast⟩
    show (if (stripList (formatLine h)).isEmpty = true then _ else _) = _
    rw [if_neg (by
      intro hc
      exact stripList_formatLine_ne h (List.isEmpty_iff.1 hc))]
    rw [matchTocLine_format hgt]
    show (if 2 * (h.level - 1) % 2 ≠ 0 then _ else _) = _
    rw [if_neg (by omega)]
    rw [ih (n + 1) (fun x hx => hgood x (by simp [hx]))]
    show Except.ok _ = _
    have htitle : String.mk (stripList h.text.data) = h.text := by
      rw [stripList_eq_self hall hhead hlast, string_mk_data]
    rw [htitle]
    have hlvl2 : 2 * (h.level - 1) / 2 + 1 = h.level := by omega
    rw [hlvl2]
    rfl

/-- **C2 counterexample.** The title `"A "` is ASCII and contains no embedded
page marker, yet the round trip strips its trailing space: the claim as
stated is false. -/
theorem parseToc_format_cex :
    parseToc (formatToc [⟨"A ", 1, 0⟩]) = Except.ok [⟨"A", 1, 0⟩] ∧
      ("A" : String) ≠ "A " :=
  ⟨rfl, by decide⟩

/-- **C2 (amended).** For every heading sequence whose levels are at least 1
and whose titles consist of printable ASCII (0x20–0x7E) with no leading or
trailing space, `parse_toc(format_toc(headings)) = headings`.  (With these
conditions the "no embedded `(p. N)` substring" exclusion of the original
claim is not needed: an embedded marker is always re-absorbed into the
title by the regex's backtracking.) -/
theorem parseToc_formatToc (hs : List Heading)
    (hgood : ∀ x ∈ hs, goodHeading x = true) :
    parseToc (formatToc hs) = Except.ok hs := by
  cases hs with
  | nil => rfl
  | cons h hs' =>
    show parseTocAux 1 (splitLines (String.mk (joinLines
      ((h :: hs').map formatLine) ++ ['\n'])).data) = _
    have hdata : (String.mk (joinLines ((h :: hs').map formatLine) ++ ['\n'])).data =
        joinLines ((h :: hs').map formatLine) ++ ['\n'] := rfl
    rw [hdata]
    rw [splitLines_join _ (by simp) (by
      intro l hl c hc
      rcases List.mem_map.1 hl with ⟨x, hx, rfl⟩
      have hgx : goodHeading x = true := hgood x hx
      have hgtx : goodTitle x.text = true := by
        simp only [goodHeading, Bool.and_eq_true] at hgx
        exact hgx.2
      exact formatLine_no_splitter hgtx c hc)]
    exact parseTocAux_format (h :: hs') 1 hgood

/-- Headings used as the concrete round-trip witness. -/
def rtHeadings : List Heading :=
  [⟨"Chapter 1", 1, 0⟩, ⟨"Intro", 2, 4⟩, ⟨"Deep dive (p. 3)", 3, 11⟩]

/-- Witness for the amended C2 at a concrete heading list. -/
theorem parseToc_formatToc_witness :
    parseToc (formatToc rtHeadings) = Except.ok rtHeadings :=
  parseToc_formatToc rtHeadings (by decide)
